import Mathlib

/-!
# oaiunion: model registry and weighted endpoint selection

A shallow embedding of the Go gateway (packages `config`, `balancer`,
`discovery`, `server`) together with theorems about it.

Conventions of the embedding:

* Go `int` is the 64-bit two's-complement integer: values live in `Int`, and
  every `+` / `-` of the source is followed by `wrapInt`.
* Go `uint64` lives in `Nat`, arithmetic is taken modulo `2 ^ 64`.
* A Go `map[string]T` is a function `String → Option T` (`none` = key absent).
* A pointer result (`*config.EndpointConfig`) is an `Option` (`none` = `nil`).
* A Go panic is an explicit outcome, never a hidden default.
* The value returned by `rand.Intn` is an input of `Next`.
-/

namespace Oaiunion

/-! ## package config -/

/-- Settings of one backend endpoint (`config.EndpointConfig`). -/
structure EndpointConfig where
  Name : String
  BaseURL : String
  APIKey : String
  Weight : Int
deriving DecidableEq

/-- Listener settings (`config.ServerConfig`). -/
structure ServerConfig where
  Host : String
  Port : Int
  APIKey : String
deriving DecidableEq

/-- Routing settings (`config.RoutingConfig`). `ModelOverrides` is a Go map that
the code only ranges over; it is kept as the list of its entries in the order the
`range` statement visits them. -/
structure RoutingConfig where
  Mode : String
  ModelOverrides : List (String × List String)
deriving DecidableEq

/-- Whole service configuration (`config.Config`). -/
structure Config where
  Server : ServerConfig
  Endpoints : List EndpointConfig
  Routing : RoutingConfig
deriving DecidableEq

/-! ## Go machine integers -/

/-- Two's-complement wrap of a mathematical integer into the range of Go `int`
(64 bits): the result is congruent to `x` modulo `2 ^ 64` and lies in
`[-2 ^ 63, 2 ^ 63)`. -/
def wrapInt (x : Int) : Int := (x + 2 ^ 63) % 2 ^ 64 - 2 ^ 63

/-- Wrap of a natural number into the range of Go `uint64`. -/
def wrapUint64 (x : Nat) : Nat := x % 2 ^ 64

/-! ## package balancer -/

/-- The `counters` field of `Balancer`: `map[string]uint64`. -/
abbrev Counters := String → Option Nat

/-- Counter map of `NewBalancer`: `make(map[string]uint64)`. -/
def NewBalancer : Counters := fun _ => none

/-- Map read `b.counters[modelName]`: the zero value when the key is absent. -/
def Counters.read (c : Counters) (modelName : String) : Nat := (c modelName).getD 0

/-- Map write `b.counters[modelName] = v`. -/
def Counters.write (c : Counters) (modelName : String) (v : Nat) : Counters :=
  fun k => if k = modelName then some v else c k

/-- Outcome of one call of `Balancer.Next`: a panic, or the returned pointer
(`none` = `nil`) together with the counter map left behind. -/
inductive NextResult where
  | panicked
  | returned (endpoint : Option EndpointConfig) (counters : Counters)

/-- The weight the balancer uses for an endpoint: `1` when `Weight <= 0`
(lines 39-43 and 62-65 of `balancer.go`). -/
def effectiveWeight (ep : EndpointConfig) : Int :=
  if ep.Weight ≤ 0 then 1 else ep.Weight

/-- First loop of `Next` (lines 36-44) started from the accumulator `acc`:
adds `1` or `ep.Weight` to `totalWeight`, in Go `int` arithmetic. -/
def totalWeightFrom (acc : Int) : List EndpointConfig → Int
  | [] => acc
  | ep :: rest =>
    if ep.Weight ≤ 0 then totalWeightFrom (wrapInt (acc + 1)) rest
    else totalWeightFrom (wrapInt (acc + ep.Weight)) rest

/-- The value of the variable `totalWeight` after the first loop of `Next`. -/
def totalWeight (endpoints : List EndpointConfig) : Int := totalWeightFrom 0 endpoints

/-- Call `rand.Intn(n)` whose drawn value is `r`: the library panics when `n <= 0`
and otherwise returns a value of `[0, n)`, here the given `r`. -/
def randIntn (n : Int) (r : Int) : Option Int := if n ≤ 0 then none else some r

/-- Second loop of `Next` (lines 61-70): walks the endpoints subtracting weights
from `randomWeight`; `none` means the loop ended without returning. -/
def walk : List EndpointConfig → Int → Option EndpointConfig
  | [], _ => none
  | ep :: rest, randomWeight =>
    let weight := if ep.Weight ≤ 0 then 1 else ep.Weight
    if randomWeight < weight then some ep
    else walk rest (wrapInt (randomWeight - weight))

/-- Method `Balancer.Next` (lines 28-74 of `balancer.go`). `counters` is the
counter map before the call and `r` the value `rand.Intn` draws if it is called. -/
def Next (counters : Counters) (modelName : String) (endpoints : List EndpointConfig)
    (r : Int) : NextResult :=
  match endpoints with
  | [] => .returned none counters
  | [ep] => .returned (some ep) counters
  | _ =>
    let total := totalWeight endpoints
    if total = 0 then
      let count := counters.read modelName
      let counters1 := counters.write modelName (wrapUint64 (count + 1))
      let index := count % endpoints.length
      match endpoints[index]? with
      | some ep => .returned (some ep) counters1
      | none => .panicked
    else
      match randIntn total r with
      | none => .panicked
      | some randomWeight =>
        match walk endpoints randomWeight with
        | some ep => .returned (some ep) counters
        | none => .returned endpoints.getLast? counters

/-! ## package discovery -/

/-- One model record of a backend answer (`discovery.Model`). -/
structure Model where
  ID : String
  Object : String
  Created : Int
  OwnedBy : String
deriving DecidableEq

/-- Answer of a backend to `/v1/models` (`discovery.ModelList`). -/
structure ModelList where
  Object : String
  Data : List Model
deriving DecidableEq

/-- The field `ModelRegistry.Models`: `map[string][]config.EndpointConfig`. -/
abbrev Registry := String → Option (List EndpointConfig)

/-- The registry of `make(map[string][]config.EndpointConfig)`. -/
def Registry.empty : Registry := fun _ => none

/-- Index expression `r.Models[k]`: the nil slice when the key is absent. -/
def Registry.lookup (M : Registry) (k : String) : List EndpointConfig := (M k).getD []

/-- Map write `r.Models[k] = v`. -/
def Registry.set (M : Registry) (k : String) (v : List EndpointConfig) : Registry :=
  fun j => if j = k then some v else M j

/-- Builtin `delete(r.Models, k)`. -/
def Registry.delete (M : Registry) (k : String) : Registry :=
  fun j => if j = k then none else M j

/-- Method `ModelRegistry.register` (lines 38-42 of `discovery.go`). -/
def register (M : Registry) (modelName : String) (endpoint : EndpointConfig) : Registry :=
  M.set modelName (M.lookup modelName ++ [endpoint])

/-- A model record in which only the identifier is set, as in `Model{ID: id}`. -/
def Model.ofID (id : String) : Model := { ID := id, Object := "", Created := 0, OwnedBy := "" }

/-- Function `getMockModels` (lines 148-174 of `discovery.go`). -/
def getMockModels (providerName : String) : ModelList :=
  if providerName = "provider-a" then
    { Object := "", Data := [Model.ofID "gpt-4-turbo-preview", Model.ofID "claude-3-opus-20240229"] }
  else if providerName = "provider-b" then
    { Object := "", Data := [Model.ofID "gpt-4", Model.ofID "claude-v3-opus"] }
  else if providerName = "provider-c-custom" then
    { Object := "", Data := [Model.ofID "gpt-4-1106-preview", Model.ofID "dall-e-3"] }
  else
    { Object := "", Data := [] }

/-- The key under which `fetchAndRegisterModels` registers a returned model
(lines 81-84): `endpoint.Name + "/" + model.ID` in mode `"prefix"`, else `model.ID`. -/
def modelKey (endpoint : EndpointConfig) (mode : String) (model : Model) : String :=
  if mode = "prefix" then endpoint.Name ++ "/" ++ model.ID else model.ID

/-- The loop of `fetchAndRegisterModels` (lines 80-86) over the models a backend
returned. -/
def registerModels (M : Registry) (endpoint : EndpointConfig) (mode : String) :
    List Model → Registry
  | [] => M
  | model :: rest => registerModels (register M (modelKey endpoint mode model) endpoint) endpoint mode rest

/-- Method `ModelRegistry.fetchAndRegisterModels` (lines 73-87): the model list is
the one of `getMockModels`. -/
def fetchAndRegisterModels (M : Registry) (endpoint : EndpointConfig) (mode : String) : Registry :=
  registerModels M endpoint mode (getMockModels endpoint.Name).Data

/-- Position of the first `/` of a character list: the characters before it and
the characters after it. -/
def splitFirstSlash : List Char → Option (List Char × List Char)
  | [] => none
  | c :: cs =>
    if c = '/' then some ([], cs)
    else match splitFirstSlash cs with
      | some (a, b) => some (c :: a, b)
      | none => none

/-- Library call `strings.SplitN(s, "/", 2)`: `[s]` when `s` holds no `/`, else
the text before the first `/` and the text after it. The separator is ASCII, so
cutting at characters and cutting at bytes agree on UTF-8 text. -/
def splitN2 (s : String) : List String :=
  match splitFirstSlash s.data with
  | some (a, b) => [String.mk a, String.mk b]
  | none => [s]

/-- Resolution loop of `applyModelOverrides` (lines 104-121): `acc` is
`endpointsToMerge` so far. For each well-formed ref the first endpoint of the
named model whose name is the provider is appended. -/
def resolveRefs (M : Registry) (acc : List EndpointConfig) : List String → List EndpointConfig
  | [] => acc
  | modelRef :: rest =>
    match splitN2 modelRef with
    | [providerName, modelName] =>
      match M modelName with
      | some originalEndpoints =>
        match originalEndpoints.find? (fun ep => ep.Name = providerName) with
        | some ep => resolveRefs M (acc ++ [ep]) rest
        | none => resolveRefs M acc rest
      | none => resolveRefs M acc rest
    | _ => resolveRefs M acc rest

/-- Cleanup loop of `applyModelOverrides` (lines 129-142): every well-formed ref
whose model currently has exactly one endpoint has its key deleted. -/
def cleanupRefs (M : Registry) : List String → Registry
  | [] => M
  | modelRef :: rest =>
    match splitN2 modelRef with
    | [_, modelName] =>
      if (M.lookup modelName).length = 1 then cleanupRefs (M.delete modelName) rest
      else cleanupRefs M rest
    | _ => cleanupRefs M rest

/-- Body of the outer loop of `applyModelOverrides` (lines 102-143) for one entry
`unifiedName -> realModelRefs`. -/
def applyOverride (M : Registry) (rule : String × List String) : Registry :=
  let endpointsToMerge := resolveRefs M [] rule.2
  if endpointsToMerge.length > 0 then
    cleanupRefs (M.set rule.1 (M.lookup rule.1 ++ endpointsToMerge)) rule.2
  else M

/-- Method `ModelRegistry.applyModelOverrides` (lines 90-145). `overrides` lists
the entries of the Go map in the order the `range` loop visits them. The local map
`providerEndpoints` (lines 95-100) is written and never read, so it is left out. -/
def applyModelOverrides (M : Registry) (overrides : List (String × List String)) : Registry :=
  overrides.foldl applyOverride M

/-- The `register` calls one discovery goroutine makes for an endpoint, in order,
when the backend answers `discover endpoint.Name`. -/
def registerCalls (discover : String → ModelList) (mode : String) (endpoint : EndpointConfig) :
    List (String × EndpointConfig) :=
  (discover endpoint.Name).Data.map (fun model => (modelKey endpoint mode model, endpoint))

/-- Runs a serialisation of `register` calls. -/
def runRegisterCalls (M : Registry) (calls : List (String × EndpointConfig)) : Registry :=
  calls.foldl (fun R call => register R call.1 call.2) M

/-- Function `NewModelRegistry` (lines 45-69) for a given serialisation `calls` of
the `register` calls of its goroutines (each call holds the write lock, so any
concurrent run is one such serialisation), followed by the override pass in mode
`"merge"`. -/
def buildRegistry (cfg : Config) (calls : List (String × EndpointConfig)) : Registry :=
  let registry := runRegisterCalls Registry.empty calls
  if cfg.Routing.Mode = "merge" then applyModelOverrides registry cfg.Routing.ModelOverrides
  else registry

/-- Function `NewModelRegistry` when the goroutines run one after the other in the
order of `cfg.Endpoints`. -/
def NewModelRegistry (cfg : Config) : Registry :=
  let registry := cfg.Endpoints.foldl
    (fun R endpoint => fetchAndRegisterModels R endpoint cfg.Routing.Mode) Registry.empty
  if cfg.Routing.Mode = "merge" then applyModelOverrides registry cfg.Routing.ModelOverrides
  else registry

/-! ## package server -/

/-- What a reverse proxy built by `NewServer` does to a request (its `Director`,
lines 46-51 of `server.go`): target scheme and host, and the `Authorization`
header it sets. -/
structure ReverseProxy where
  Scheme : String
  Host : String
  Authorization : String
deriving DecidableEq

/-- The field `Server.proxies`: `map[string]*httputil.ReverseProxy`. -/
abbrev Proxies := String → Option ReverseProxy

/-- Request body fields read by the handler (`server.ChatCompletionRequest`). -/
structure ChatCompletionRequest where
  Model : String
  Stream : Bool
deriving DecidableEq

/-- Observable steps of `handleChatCompletions`, in program order. -/
inductive Effect where
  | respondJSON (status : Nat)
  | balancerNext (modelName : String) (endpoints : List EndpointConfig)
  | serveHTTP (proxy : ReverseProxy)
  | panic
deriving DecidableEq

/-- Result of one run of the handler: its steps and the balancer counters after. -/
structure HandlerResult where
  trace : List Effect
  counters : Counters

/-- Method `Server.handleChatCompletions` (lines 114-146 of `server.go`). `bound`
is the outcome of `c.Bind(&req)` (`none` = error) and `r` the value `rand.Intn`
draws if the balancer calls it. -/
def handleChatCompletions (registry : Registry) (proxies : Proxies) (counters : Counters)
    (bound : Option ChatCompletionRequest) (r : Int) : HandlerResult :=
  match bound with
  | none => { trace := [.respondJSON 400], counters := counters }
  | some req =>
    match registry req.Model with
    | none => { trace := [.respondJSON 404], counters := counters }
    | some endpoints =>
      if endpoints.length = 0 then { trace := [.respondJSON 404], counters := counters }
      else
        match Next counters req.Model endpoints r with
        | .panicked =>
          { trace := [.balancerNext req.Model endpoints, .panic], counters := counters }
        | .returned none counters1 =>
          { trace := [.balancerNext req.Model endpoints, .respondJSON 500], counters := counters1 }
        | .returned (some selectedEndpoint) counters1 =>
          match proxies selectedEndpoint.Name with
          | none =>
            { trace := [.balancerNext req.Model endpoints, .respondJSON 500], counters := counters1 }
          | some proxy =>
            { trace := [.balancerNext req.Model endpoints, .serveHTTP proxy], counters := counters1 }

/-! ## Specification-side quantities and sample data -/

/-- Sum of the effective weights of all endpoints, as a mathematical integer. -/
def weightSum (endpoints : List EndpointConfig) : Int := (endpoints.map effectiveWeight).sum

/-- Sum of the effective weights of the endpoints at indices below `i`. -/
def weightBefore (endpoints : List EndpointConfig) (i : Nat) : Int :=
  weightSum (endpoints.take i)

/-- Sample endpoint with an unset weight. -/
def exA : EndpointConfig :=
  { Name := "provider-a", BaseURL := "http://a.example", APIKey := "key-a", Weight := 0 }

/-- Second sample endpoint with an unset weight. -/
def exB : EndpointConfig :=
  { Name := "provider-b", BaseURL := "http://b.example", APIKey := "key-b", Weight := 0 }

/-- Sample endpoint of weight 3. -/
def exW3 : EndpointConfig :=
  { Name := "provider-c", BaseURL := "http://c.example", APIKey := "key-c", Weight := 3 }

/-- Sample endpoint of weight 2. -/
def exTwo : EndpointConfig := { Name := "small", BaseURL := "", APIKey := "", Weight := 2 }

/-- Sample endpoint carrying the largest Go `int`. -/
def exMax1 : EndpointConfig := { Name := "big-1", BaseURL := "", APIKey := "", Weight := 2 ^ 63 - 1 }

/-- Second sample endpoint carrying the largest Go `int`. -/
def exMax2 : EndpointConfig := { Name := "big-2", BaseURL := "", APIKey := "", Weight := 2 ^ 63 - 1 }

/-- Sample registry: `gpt-4` served by two providers, two models by one each. -/
def exRegistry : Registry := fun k =>
  if k = "gpt-4" then some [exA, exB]
  else if k = "claude" then some [exB]
  else if k = "gpt-4-turbo-preview" then some [exA]
  else none

/-- Sample configuration in mode `"merge"` with one override rule. -/
def exConfig : Config :=
  { Server := { Host := "0.0.0.0", Port := 8080, APIKey := "" }
    Endpoints := [exA, exB]
    Routing :=
      { Mode := "merge"
        ModelOverrides :=
          [("gpt-4-unified", ["provider-a/gpt-4-turbo-preview", "provider-b/gpt-4"])] } }

/-- An interleaving of the `register` calls of the two goroutines of `exConfig`. -/
def exCalls : List (String × EndpointConfig) :=
  [("gpt-4", exB), ("gpt-4-turbo-preview", exA), ("claude-v3-opus", exB),
   ("claude-3-opus-20240229", exA)]

/-! ## Forwarding targets of `NewServer` -/

/-- The parts of a parsed `*url.URL` that the `Director` reads. -/
structure URL where
  Scheme : String
  Host : String
deriving DecidableEq

/-- The `Director` closure of `NewServer` (lines 46-51 of `server.go`) as the proxy
it configures: scheme and host of `target`, and the header `"Bearer " + APIKey` of
the endpoint value the closure sees in the variable `endpoint`. -/
def director (target : URL) (endpoint : EndpointConfig) : ReverseProxy :=
  { Scheme := target.Scheme, Host := target.Host, Authorization := "Bearer " ++ endpoint.APIKey }

/-- The proxy table built by `NewServer` (lines 37-54 of `server.go`). `parse` is
`url.Parse` (`none` = error, the endpoint is skipped). The closure reads the loop
variable `endpoint` when a request is served, so its value depends on the language
version named in `go.mod`, which is not part of the sources at hand:
`loopVarPerIteration = true` is Go 1.22 and later (each iteration has its own
`endpoint`), `false` is the older rule (one shared variable, which holds the last
element of `cfg.Endpoints` once the loop is over). `target` is declared inside the
loop body and is per iteration under both rules. -/
def NewServer (parse : String → Option URL) (loopVarPerIteration : Bool) (cfg : Config) :
    Proxies :=
  cfg.Endpoints.foldl
    (fun proxies endpoint =>
      match parse endpoint.BaseURL with
      | none => proxies
      | some target =>
        let seen := if loopVarPerIteration then endpoint
          else (cfg.Endpoints.getLast?).getD endpoint
        fun k => if k = endpoint.Name then some (director target seen) else proxies k)
    (fun _ => none)

/-! ## Specification-side descriptions of the override pass -/

/-- The endpoint a ref contributes to a merge, in the spec's words: for a
well-formed ref `(p, m)` the first endpoint of `M[m]` whose name is `p`, if any. -/
def firstMatch (M : Registry) (modelRef : String) : Option EndpointConfig :=
  match splitN2 modelRef with
  | [p, m] => (M.lookup m).find? (fun ep => ep.Name = p)
  | _ => none

/-- The list `C` of the spec: the contributions of the refs, in ref order. -/
def firstMatches (M : Registry) (refs : List String) : List EndpointConfig :=
  refs.filterMap (firstMatch M)

/-- The model name of a well-formed ref. -/
def refModel (modelRef : String) : Option String :=
  match splitN2 modelRef with
  | [_, m] => some m
  | _ => none

/-- The names an override rule touches: its unified name and the model names of
its well-formed refs. -/
def touchedNames (rule : String × List String) : List String :=
  rule.1 :: rule.2.filterMap refModel

/-- Sample parser: every address parses, the host is the address itself. -/
def exParse (s : String) : Option URL := some { Scheme := "http", Host := s }

/-- Sample counter state in which the counter of `gpt-4` is the largest `uint64`. -/
def exFullCounters : Counters := fun k => if k = "gpt-4" then some (2 ^ 64 - 1) else none

/-- Sample configuration whose two endpoints have different keys. -/
def exKeyConfig : Config :=
  { Server := { Host := "0.0.0.0", Port := 8080, APIKey := "" }
    Endpoints := [exA, exB]
    Routing := { Mode := "", ModelOverrides := [] } }

/-! ## Go integers and the weight sums -/

theorem wrapInt_of_range (x : Int) (h0 : -2 ^ 63 ≤ x) (h1 : x < 2 ^ 63) : wrapInt x = x := by
  unfold wrapInt
  norm_num at h0 h1 ⊢
  omega

theorem effectiveWeight_pos (ep : EndpointConfig) : 1 ≤ effectiveWeight ep := by
  unfold effectiveWeight
  split <;> omega

theorem weightSum_cons (ep : EndpointConfig) (rest : List EndpointConfig) :
    weightSum (ep :: rest) = effectiveWeight ep + weightSum rest := by
  simp [weightSum]

theorem weightSum_nonneg (endpoints : List EndpointConfig) : 0 ≤ weightSum endpoints := by
  induction endpoints with
  | nil => simp [weightSum]
  | cons ep rest ih =>
    rw [weightSum_cons]
    have := effectiveWeight_pos ep
    omega

theorem weightBefore_zero (endpoints : List EndpointConfig) : weightBefore endpoints 0 = 0 := by
  simp [weightBefore, weightSum]

theorem weightBefore_succ_cons (ep : EndpointConfig) (rest : List EndpointConfig) (i : Nat) :
    weightBefore (ep :: rest) (i + 1) = effectiveWeight ep + weightBefore rest i := by
  simp [weightBefore, weightSum_cons]

theorem weightBefore_mono (endpoints : List EndpointConfig) (i j : Nat) (h : i ≤ j) :
    weightBefore endpoints i ≤ weightBefore endpoints j := by
  induction endpoints generalizing i j with
  | nil => simp [weightBefore, weightSum]
  | cons ep rest ih =>
    cases i with
    | zero =>
      rw [weightBefore_zero]
      exact weightSum_nonneg _
    | succ i =>
      cases j with
      | zero => omega
      | succ j =>
        rw [weightBefore_succ_cons, weightBefore_succ_cons]
        have := ih i j (by omega)
        omega

theorem weightBefore_le_sum (endpoints : List EndpointConfig) (i : Nat) :
    weightBefore endpoints i ≤ weightSum endpoints := by
  induction endpoints generalizing i with
  | nil => simp [weightBefore, weightSum]
  | cons ep rest ih =>
    cases i with
    | zero =>
      rw [weightBefore_zero]
      exact weightSum_nonneg _
    | succ i =>
      rw [weightBefore_succ_cons, weightSum_cons]
      have := ih i
      omega

theorem weightBefore_succ (endpoints : List EndpointConfig) (i : Nat) (h : i < endpoints.length) :
    weightBefore endpoints (i + 1) =
      weightBefore endpoints i + effectiveWeight (endpoints.get ⟨i, h⟩) := by
  induction endpoints generalizing i with
  | nil => simp at h
  | cons ep rest ih =>
    cases i with
    | zero => simp [weightBefore, weightSum]
    | succ i =>
      rw [weightBefore_succ_cons, weightBefore_succ_cons]
      have := ih i (by simpa using h)
      simp only [List.get_eq_getElem, List.getElem_cons_succ] at this ⊢
      omega

theorem totalWeightFrom_eq (endpoints : List EndpointConfig) (acc : Int) (h0 : 0 ≤ acc)
    (h : acc + weightSum endpoints < 2 ^ 63) :
    totalWeightFrom acc endpoints = acc + weightSum endpoints := by
  induction endpoints generalizing acc with
  | nil => simp [totalWeightFrom, weightSum]
  | cons ep rest ih =>
    rw [weightSum_cons] at h ⊢
    have hpos := effectiveWeight_pos ep
    have hrest := weightSum_nonneg rest
    have hw : wrapInt (acc + effectiveWeight ep) = acc + effectiveWeight ep :=
      wrapInt_of_range _ (by norm_num; omega) (by omega)
    have hstep : totalWeightFrom acc (ep :: rest)
        = totalWeightFrom (wrapInt (acc + effectiveWeight ep)) rest := by
      unfold effectiveWeight
      by_cases hz : ep.Weight ≤ 0 <;> simp [totalWeightFrom, hz]
    rw [hstep, hw, ih _ (by omega) (by omega)]
    omega

theorem totalWeight_eq (endpoints : List EndpointConfig) (h : weightSum endpoints < 2 ^ 63) :
    totalWeight endpoints = weightSum endpoints := by
  unfold totalWeight
  rw [totalWeightFrom_eq endpoints 0 (le_refl _) (by omega)]
  omega

theorem walk_mem (endpoints : List EndpointConfig) (r : Int) (ep : EndpointConfig)
    (h : walk endpoints r = some ep) : ep ∈ endpoints := by
  induction endpoints generalizing r with
  | nil => simp [walk] at h
  | cons e rest ih =>
    simp only [walk] at h
    generalize (if e.Weight ≤ 0 then 1 else e.Weight) = w at h
    by_cases hlt : r < w
    · rw [if_pos hlt] at h
      cases h
      exact List.mem_cons_self _ _
    · rw [if_neg hlt] at h
      exact List.mem_cons_of_mem _ (ih _ h)

theorem walk_index (endpoints : List EndpointConfig) (r : Int) (h0 : 0 ≤ r)
    (h1 : r < weightSum endpoints) (hs : weightSum endpoints < 2 ^ 63) :
    ∃ i, ∃ h : i < endpoints.length,
      weightBefore endpoints i ≤ r ∧ r < weightBefore endpoints (i + 1) ∧
      walk endpoints r = some (endpoints.get ⟨i, h⟩) := by
  induction endpoints generalizing r with
  | nil => simp [weightSum] at h1; omega
  | cons ep rest ih =>
    rw [weightSum_cons] at h1 hs
    have hpos := effectiveWeight_pos ep
    have hrest := weightSum_nonneg rest
    by_cases hlt : r < effectiveWeight ep
    · refine ⟨0, by simp, ?_, ?_, ?_⟩
      · rw [weightBefore_zero]; exact h0
      · rw [weightBefore_succ_cons, weightBefore_zero]; omega
      · have : r < (if ep.Weight ≤ 0 then 1 else ep.Weight) := hlt
        simp [walk, this]
    · have hw : wrapInt (r - effectiveWeight ep) = r - effectiveWeight ep :=
        wrapInt_of_range _ (by norm_num; omega) (by omega)
      obtain ⟨i, hi, hb0, hb1, hwalk⟩ := ih (r - effectiveWeight ep) (by omega) (by omega) (by omega)
      refine ⟨i + 1, by simpa using hi, ?_, ?_, ?_⟩
      · rw [weightBefore_succ_cons]; omega
      · rw [weightBefore_succ_cons]; omega
      · have hnot : ¬ r < (if ep.Weight ≤ 0 then 1 else ep.Weight) := hlt
        have hw2 : wrapInt (r - (if ep.Weight ≤ 0 then 1 else ep.Weight)) = r - effectiveWeight ep := hw
        simp only [walk, hnot, if_false, hw2, hwalk]
        simp

/-! ## Balancer -/

theorem Next_unfold_many (counters : Counters) (modelName : String) (e1 e2 : EndpointConfig)
    (rest : List EndpointConfig) (r : Int) :
    Next counters modelName (e1 :: e2 :: rest) r =
      if totalWeight (e1 :: e2 :: rest) = 0 then
        match (e1 :: e2 :: rest)[counters.read modelName % (e1 :: e2 :: rest).length]? with
        | some ep => .returned (some ep)
            (counters.write modelName (wrapUint64 (counters.read modelName + 1)))
        | none => .panicked
      else
        match randIntn (totalWeight (e1 :: e2 :: rest)) r with
        | none => .panicked
        | some randomWeight =>
          match walk (e1 :: e2 :: rest) randomWeight with
          | some ep => .returned (some ep) counters
          | none => .returned (e1 :: e2 :: rest).getLast? counters := rfl

theorem Next_of_walk (counters : Counters) (modelName : String)
    (endpoints : List EndpointConfig) (r : Int) (ep : EndpointConfig)
    (hlen : 2 ≤ endpoints.length) (hpos : 0 < totalWeight endpoints)
    (hwalk : walk endpoints r = some ep) :
    Next counters modelName endpoints r = .returned (some ep) counters := by
  match endpoints, hlen, hpos, hwalk with
  | e1 :: e2 :: rest, _, hpos, hwalk =>
    rw [Next_unfold_many]
    have hne : ¬ totalWeight (e1 :: e2 :: rest) = 0 := by omega
    have hle : ¬ totalWeight (e1 :: e2 :: rest) ≤ 0 := by omega
    simp only [if_neg hne, randIntn, if_neg hle, hwalk]

/-- Claim C1, amended: totality of `Balancer.Next` when the total weight is not
negative. For every model name, counter state and drawn value, and every non-empty
candidate list whose Go `int` variable `totalWeight` is not negative when two or more
candidates are given, `Next` does not panic and returns a non-nil endpoint that is an
element of the candidate list. The variable is not negative whenever the effective
weights sum to less than `2 ^ 63`. -/
theorem Next_returns_member (counters : Counters) (modelName : String)
    (endpoints : List EndpointConfig) (r : Int) (hne : endpoints ≠ [])
    (htot : 2 ≤ endpoints.length → 0 ≤ totalWeight endpoints) :
    (∃ ep counters1, Next counters modelName endpoints r = .returned (some ep) counters1 ∧
      ep ∈ endpoints) ∧
    (weightSum endpoints < 2 ^ 63 → 0 ≤ totalWeight endpoints) := by
  constructor
  · match endpoints, hne, htot with
    | [], hne, _ => exact absurd rfl hne
    | [ep], _, _ => exact ⟨ep, counters, rfl, by simp⟩
    | e1 :: e2 :: rest, _, htot =>
      rw [Next_unfold_many]
      by_cases ht : totalWeight (e1 :: e2 :: rest) = 0
      · rw [if_pos ht]
        have hidx : counters.read modelName % (e1 :: e2 :: rest).length
            < (e1 :: e2 :: rest).length := Nat.mod_lt _ (by simp)
        rw [List.getElem?_eq_getElem hidx]
        exact ⟨_, _, rfl, List.getElem_mem _⟩
      · rw [if_neg ht]
        have h0 := htot (by simp)
        have hpos : ¬ totalWeight (e1 :: e2 :: rest) ≤ 0 := by omega
        simp only [randIntn, if_neg hpos]
        cases hw : walk (e1 :: e2 :: rest) r with
        | some ep => exact ⟨ep, counters, rfl, walk_mem _ _ _ hw⟩
        | none =>
          refine ⟨(e1 :: e2 :: rest).getLast (by simp), counters, ?_, List.getLast_mem _⟩
          simp [List.getLast?_eq_getLast]
  · intro hsum
    rw [totalWeight_eq endpoints hsum]
    exact weightSum_nonneg endpoints

theorem Next_returns_member_witness :
    (∃ ep counters1, Next NewBalancer "gpt-4" [exW3, exA] 3 = .returned (some ep) counters1 ∧
      ep ∈ [exW3, exA]) ∧
    (weightSum [exW3, exA] < 2 ^ 63 → 0 ≤ totalWeight [exW3, exA]) :=
  Next_returns_member NewBalancer "gpt-4" [exW3, exA] 3 (by decide) (by decide)

/-- Claim C1 fails as stated: the non-empty list with weights `2 ^ 63 - 1` and `2`
has effective weights summing to `2 ^ 63 + 1`, so `0` is a value below the sum, but
the Go `int` variable `totalWeight` wraps to `-2 ^ 63 + 1` and `rand.Intn` panics:
for every counter state, model name and drawn value `Next` panics and returns no
endpoint. -/
theorem Next_panics_on_negative_total :
    [exMax1, exTwo] ≠ [] ∧
    weightSum [exMax1, exTwo] = 2 ^ 63 + 1 ∧
    ((0 : Int) ≤ 0 ∧ (0 : Int) < weightSum [exMax1, exTwo]) ∧
    totalWeight [exMax1, exTwo] = -2 ^ 63 + 1 ∧
    (∀ (counters : Counters) (modelName : String) (r : Int),
      Next counters modelName [exMax1, exTwo] r = .panicked) ∧
    (∀ (counters : Counters) (modelName : String) (r : Int),
      ¬ ∃ ep counters1,
        Next counters modelName [exMax1, exTwo] r = .returned (some ep) counters1 ∧
        ep ∈ [exMax1, exTwo]) := by
  have hpanic : ∀ (counters : Counters) (modelName : String) (r : Int),
      Next counters modelName [exMax1, exTwo] r = .panicked := by
    intro counters modelName r
    rw [Next_unfold_many]
    have ht : totalWeight [exMax1, exTwo] = -2 ^ 63 + 1 := by decide
    have hne : ¬ totalWeight [exMax1, exTwo] = 0 := by rw [ht]; decide
    have hle : totalWeight [exMax1, exTwo] ≤ 0 := by rw [ht]; decide
    simp only [if_neg hne, randIntn, if_pos hle]
  refine ⟨by decide, by decide, by decide, by decide, hpanic, ?_⟩
  intro counters modelName r h
  obtain ⟨ep, counters1, hret, _⟩ := h
  rw [hpanic] at hret
  cases hret

/-- Claim C7: single-candidate shortcut. With exactly one candidate `Next` returns
that candidate whatever the drawn value is, two runs with different draws give the
same result, and the counter map after the call is the counter map before it. -/
theorem Next_single_candidate (counters : Counters) (modelName : String) (ep : EndpointConfig) :
    (∀ r : Int, Next counters modelName [ep] r = .returned (some ep) counters) ∧
    (∀ r1 r2 : Int, Next counters modelName [ep] r1 = Next counters modelName [ep] r2) :=
  ⟨fun _ => rfl, fun _ _ => rfl⟩

/-- Claim C6, the code at the failing input: two candidates whose weights are both
unset (`0`) get `totalWeight = 2`, so `Next` takes the random branch. On a fresh
balancer the draw `1` returns the second candidate first and leaves the counters
untouched, and the draw `0` returns the first one: the order follows the draws, it
is no round-robin. -/
theorem Next_all_unset_weights_is_random :
    exA.Weight ≤ 0 ∧ exB.Weight ≤ 0 ∧ totalWeight [exA, exB] = 2 ∧
    Next NewBalancer "gpt-4" [exA, exB] 1 = .returned (some exB) NewBalancer ∧
    Next NewBalancer "gpt-4" [exA, exB] 0 = .returned (some exA) NewBalancer ∧
    exA ≠ exB := by
  refine ⟨by decide, by decide, by decide, rfl, rfl, by decide⟩

/-- Claim C2, amended: weighted selection when the weights fit a Go `int`. For
every candidate list with at least two entries whose effective weights sum to less
than `2 ^ 63`, the variable `totalWeight` is that sum, and for every draw `r` with
`0 <= r < totalWeight` the call returns, with unchanged counters, the candidate at
the unique index `i` with `weightBefore i <= r < weightBefore (i + 1)`. That interval
lies inside `[0, totalWeight)` and its length is the effective weight of candidate
`i`, so exactly that many of the `totalWeight` draws select position `i`. -/
theorem Next_weighted_selection (counters : Counters) (modelName : String)
    (endpoints : List EndpointConfig) (r : Int) (hlen : 2 ≤ endpoints.length)
    (hsum : weightSum endpoints < 2 ^ 63) (h0 : 0 ≤ r) (h1 : r < weightSum endpoints) :
    totalWeight endpoints = weightSum endpoints ∧
    ∃ i, ∃ h : i < endpoints.length,
      weightBefore endpoints i ≤ r ∧ r < weightBefore endpoints (i + 1) ∧
      Next counters modelName endpoints r = .returned (some (endpoints.get ⟨i, h⟩)) counters ∧
      (∀ j, j < endpoints.length → weightBefore endpoints j ≤ r →
        r < weightBefore endpoints (j + 1) → j = i) ∧
      weightBefore endpoints (i + 1) - weightBefore endpoints i
        = effectiveWeight (endpoints.get ⟨i, h⟩) ∧
      0 ≤ weightBefore endpoints i ∧ weightBefore endpoints (i + 1) ≤ weightSum endpoints := by
  have htot := totalWeight_eq endpoints hsum
  refine ⟨htot, ?_⟩
  obtain ⟨i, hi, hb0, hb1, hwalk⟩ := walk_index endpoints r h0 h1 hsum
  refine ⟨i, hi, hb0, hb1, ?_, ?_, ?_, ?_, ?_⟩
  · exact Next_of_walk counters modelName endpoints r _ hlen (by omega) hwalk
  · intro j _ hj0 hj1
    by_contra hne
    rcases Nat.lt_or_gt_of_ne hne with hlt | hgt
    · have := weightBefore_mono endpoints (j + 1) i (by omega)
      omega
    · have := weightBefore_mono endpoints (i + 1) j (by omega)
      omega
  · rw [weightBefore_succ endpoints i hi]
    omega
  · have := weightBefore_mono endpoints 0 i (by omega)
    rw [weightBefore_zero] at this
    exact this
  · exact weightBefore_le_sum _ _

theorem Next_weighted_selection_witness :
    totalWeight [exW3, exTwo] = weightSum [exW3, exTwo] ∧
    ∃ i, ∃ h : i < [exW3, exTwo].length,
      weightBefore [exW3, exTwo] i ≤ 4 ∧ 4 < weightBefore [exW3, exTwo] (i + 1) ∧
      Next NewBalancer "gpt-4" [exW3, exTwo] 4
        = .returned (some ([exW3, exTwo].get ⟨i, h⟩)) NewBalancer ∧
      (∀ j, j < [exW3, exTwo].length → weightBefore [exW3, exTwo] j ≤ 4 →
        4 < weightBefore [exW3, exTwo] (j + 1) → j = i) ∧
      weightBefore [exW3, exTwo] (i + 1) - weightBefore [exW3, exTwo] i
        = effectiveWeight ([exW3, exTwo].get ⟨i, h⟩) ∧
      0 ≤ weightBefore [exW3, exTwo] i ∧
      weightBefore [exW3, exTwo] (i + 1) ≤ weightSum [exW3, exTwo] :=
  Next_weighted_selection NewBalancer "gpt-4" [exW3, exTwo] 4 (by decide) (by decide)
    (by decide) (by decide)

/-- Claim C2 fails as stated: for weights `2 ^ 63 - 1`, `2 ^ 63 - 1`, `2` the
effective weights sum to `2 ^ 64` but the Go variable `totalWeight` wraps to `0`.
The value `r = 2 ^ 63 - 1` lies in the interval of index `1`, yet `Next` takes the
round-robin branch: on a fresh balancer it returns the candidate at index `0` and
writes the counter. -/
theorem Next_weighted_selection_overflow :
    2 ≤ [exMax1, exMax2, exTwo].length ∧
    weightSum [exMax1, exMax2, exTwo] = 2 ^ 64 ∧
    totalWeight [exMax1, exMax2, exTwo] = 0 ∧
    (0 : Int) ≤ 2 ^ 63 - 1 ∧ (2 ^ 63 - 1 : Int) < weightSum [exMax1, exMax2, exTwo] ∧
    weightBefore [exMax1, exMax2, exTwo] 1 ≤ 2 ^ 63 - 1 ∧
    2 ^ 63 - 1 < weightBefore [exMax1, exMax2, exTwo] 2 ∧
    Next NewBalancer "gpt-4" [exMax1, exMax2, exTwo] (2 ^ 63 - 1)
      = .returned (some exMax1) (NewBalancer.write "gpt-4" 1) ∧
    exMax1 ≠ exMax2 := by
  refine ⟨by decide, by decide, by decide, by decide, by decide, by decide, by decide, rfl, by decide⟩

/-! ## Override pass -/

theorem splitFirstSlash_append (p m : List Char) (h : '/' ∉ p) :
    splitFirstSlash (p ++ '/' :: m) = some (p, m) := by
  induction p with
  | nil => simp [splitFirstSlash]
  | cons c cs ih =>
    have hc : c ≠ '/' := fun hc => h (by simp [hc])
    have hcs : '/' ∉ cs := fun hcs => h (List.mem_cons_of_mem _ hcs)
    simp [splitFirstSlash, hc, ih hcs]

theorem splitN2_ref (p m : String) (h : '/' ∉ p.data) : splitN2 (p ++ "/" ++ m) = [p, m] := by
  have hdata : (p ++ "/" ++ m).data = p.data ++ '/' :: m.data := by
    simp [String.data_append]
  simp [splitN2, hdata, splitFirstSlash_append p.data m.data h]

theorem applyModelOverrides_single (M : Registry) (rule : String × List String) :
    applyModelOverrides M [rule] = applyOverride M rule := rfl

/-- Claim C3: merge policy, sole provider. If `unified` is not a registry key and
`modelX` maps to exactly `[A]` with `A.Name = providerA` (no `/` in `providerA`),
then after `applyModelOverrides` with the single rule
`unified -> ["providerA/modelX"]` the key `unified` maps to `[A]`, `modelX` is no
longer a key, and every other key is unchanged. -/
theorem applyModelOverrides_sole_provider (M : Registry) (providerA modelX unified : String)
    (A : EndpointConfig) (hslash : '/' ∉ providerA.data) (hu : M unified = none)
    (hx : M modelX = some [A]) (hA : A.Name = providerA) :
    applyModelOverrides M [(unified, [providerA ++ "/" ++ modelX])] unified = some [A] ∧
    applyModelOverrides M [(unified, [providerA ++ "/" ++ modelX])] modelX = none ∧
    ∀ k, k ≠ unified → k ≠ modelX →
      applyModelOverrides M [(unified, [providerA ++ "/" ++ modelX])] k = M k := by
  have hne : modelX ≠ unified := by
    intro h
    rw [h, hu] at hx
    cases hx
  have hne2 : unified ≠ modelX := fun h => hne h.symm
  have hres : resolveRefs M [] [providerA ++ "/" ++ modelX] = [A] := by
    simp [resolveRefs, splitN2_ref providerA modelX hslash, hx, hA]
  have hfinal : applyModelOverrides M [(unified, [providerA ++ "/" ++ modelX])]
      = (M.set unified [A]).delete modelX := by
    rw [applyModelOverrides_single]
    simp [applyOverride, hres, cleanupRefs, splitN2_ref providerA modelX hslash,
      Registry.lookup, Registry.set, hu, hx, hne]
  rw [hfinal]
  refine ⟨?_, ?_, ?_⟩
  · simp [Registry.delete, Registry.set, hne2]
  · simp [Registry.delete]
  · intro k hk1 hk2
    simp [Registry.delete, Registry.set, hk1, hk2]

theorem applyModelOverrides_sole_provider_witness :
    applyModelOverrides exRegistry [("gpt-4-unified", ["provider-a" ++ "/" ++ "gpt-4-turbo-preview"])]
      "gpt-4-unified" = some [exA] ∧
    applyModelOverrides exRegistry [("gpt-4-unified", ["provider-a" ++ "/" ++ "gpt-4-turbo-preview"])]
      "gpt-4-turbo-preview" = none ∧
    ∀ k, k ≠ "gpt-4-unified" → k ≠ "gpt-4-turbo-preview" →
      applyModelOverrides exRegistry
        [("gpt-4-unified", ["provider-a" ++ "/" ++ "gpt-4-turbo-preview"])] k = exRegistry k :=
  applyModelOverrides_sole_provider exRegistry "provider-a" "gpt-4-turbo-preview" "gpt-4-unified"
    exA (by decide) (by decide) (by decide) (by decide)

/-- Claim C4 fails as stated: with `gpt-4` served by `provider-a` and `provider-b`,
the rule `gpt-4-unified -> ["provider-a/gpt-4"]` makes `gpt-4-unified` map to the
endpoint of `provider-a`, but `gpt-4` keeps both endpoints; it does not map to the
endpoint of `provider-b` alone. -/
theorem applyModelOverrides_partial_keeps_merged :
    exRegistry "gpt-4" = some [exA, exB] ∧ exA.Name = "provider-a" ∧ exB.Name = "provider-b" ∧
    exRegistry "gpt-4-unified" = none ∧
    applyModelOverrides exRegistry [("gpt-4-unified", ["provider-a/gpt-4"])] "gpt-4-unified"
      = some [exA] ∧
    applyModelOverrides exRegistry [("gpt-4-unified", ["provider-a/gpt-4"])] "gpt-4"
      = some [exA, exB] ∧
    applyModelOverrides exRegistry [("gpt-4-unified", ["provider-a/gpt-4"])] "gpt-4"
      ≠ some [exB] := by
  decide

/-- Claim C4, amended: merge policy, partial. If `unified` is not a registry key and
`modelX` maps to exactly the two endpoints `A` (named `providerA`, no `/` in it) and
`B` (named `providerB`, different from `providerA`), in either order, then after
`applyModelOverrides` with the single rule `unified -> ["providerA/modelX"]` the key
`unified` maps to `[A]`, `modelX` is still a key and its sequence is unchanged (it
still holds both `A` and `B`), and every other key is unchanged. -/
theorem applyModelOverrides_partial (M : Registry) (providerA providerB modelX unified : String)
    (A B : EndpointConfig) (hslash : '/' ∉ providerA.data) (hu : M unified = none)
    (hx : M modelX = some [A, B] ∨ M modelX = some [B, A])
    (hA : A.Name = providerA) (hB : B.Name = providerB) (hAB : providerA ≠ providerB) :
    applyModelOverrides M [(unified, [providerA ++ "/" ++ modelX])] unified = some [A] ∧
    applyModelOverrides M [(unified, [providerA ++ "/" ++ modelX])] modelX = M modelX ∧
    ∀ k, k ≠ unified →
      applyModelOverrides M [(unified, [providerA ++ "/" ++ modelX])] k = M k := by
  have hne : modelX ≠ unified := by
    intro h
    rw [h, hu] at hx
    rcases hx with hx | hx <;> cases hx
  have hBA : ¬ B.Name = providerA := by
    rw [hB]
    exact fun h => hAB h.symm
  have hres : resolveRefs M [] [providerA ++ "/" ++ modelX] = [A] := by
    rcases hx with hx | hx <;>
      simp [resolveRefs, splitN2_ref providerA modelX hslash, hx, hA, hBA, List.find?]
  have hfinal : applyModelOverrides M [(unified, [providerA ++ "/" ++ modelX])]
      = M.set unified [A] := by
    rw [applyModelOverrides_single]
    rcases hx with hx | hx <;>
      simp [applyOverride, hres, cleanupRefs, splitN2_ref providerA modelX hslash,
        Registry.lookup, Registry.set, hu, hx, hne]
  rw [hfinal]
  refine ⟨?_, ?_, ?_⟩
  · simp [Registry.set]
  · simp [Registry.set, hne]
  · intro k hk1
    simp [Registry.set, hk1]

theorem applyModelOverrides_partial_witness :
    applyModelOverrides exRegistry [("gpt-4-unified", ["provider-a" ++ "/" ++ "gpt-4"])]
      "gpt-4-unified" = some [exA] ∧
    applyModelOverrides exRegistry [("gpt-4-unified", ["provider-a" ++ "/" ++ "gpt-4"])]
      "gpt-4" = exRegistry "gpt-4" ∧
    ∀ k, k ≠ "gpt-4-unified" →
      applyModelOverrides exRegistry [("gpt-4-unified", ["provider-a" ++ "/" ++ "gpt-4"])] k
        = exRegistry k :=
  applyModelOverrides_partial exRegistry "provider-a" "provider-b" "gpt-4" "gpt-4-unified"
    exA exB (by decide) (by decide) (Or.inl (by decide)) (by decide) (by decide) (by decide)

/-- Claim C5, the code at the failing input: `claude` is registered with the single
endpoint of `provider-b`. The rule
`unified -> ["provider-a/gpt-4-turbo-preview", "provider-z/claude"]` resolves its
first ref only (the resolution loop collects just the endpoint of `provider-a`; no
endpoint of `claude` is named `provider-z`), yet the cleanup loop deletes the key
`claude`. -/
theorem applyModelOverrides_deletes_unmerged :
    exRegistry "claude" = some [exB] ∧
    (exRegistry.lookup "claude").find? (fun ep => ep.Name = "provider-z") = none ∧
    splitN2 "provider-z/claude" = ["provider-z", "claude"] ∧
    resolveRefs exRegistry [] ["provider-a/gpt-4-turbo-preview", "provider-z/claude"] = [exA] ∧
    applyModelOverrides exRegistry
      [("unified", ["provider-a/gpt-4-turbo-preview", "provider-z/claude"])] "claude" = none := by
  decide

/-! ## Registration and dispatch -/

theorem register_apply (M : Registry) (k j : String) (e : EndpointConfig) :
    register M k e j = if j = k then some (M.lookup k ++ [e]) else M j := rfl

theorem registerModels_apply (e : EndpointConfig) (mode : String) (models : List Model)
    (M : Registry) (k : String) :
    registerModels M e mode models k =
      if models.countP (fun m => modelKey e mode m = k) = 0 then M k
      else some (M.lookup k ++
        List.replicate (models.countP (fun m => modelKey e mode m = k)) e) := by
  induction models generalizing M with
  | nil => simp [registerModels]
  | cons m rest ih =>
    rw [registerModels, ih, List.countP_cons]
    by_cases hk : modelKey e mode m = k
    · have hl : (register M (modelKey e mode m) e).lookup k = M.lookup k ++ [e] := by
        simp [Registry.lookup, register_apply, hk]
      have hv : register M (modelKey e mode m) e k = some (M.lookup k ++ [e]) := by
        simp [register_apply, hk]
      rw [hl, hv]
      simp only [hk, decide_True, if_true]
      by_cases hz : List.countP (fun m => decide (modelKey e mode m = k)) rest = 0
      · simp [hz]
      · simp [hz, List.replicate_succ]
    · have hl : (register M (modelKey e mode m) e).lookup k = M.lookup k := by
        simp [Registry.lookup, register_apply, Ne.symm hk]
      have hv : register M (modelKey e mode m) e k = M k := by
        simp [register_apply, Ne.symm hk]
      rw [hl, hv]
      simp [hk]

/-- Claim C8: namespace policy at registration. After the registration loop of
`fetchAndRegisterModels` over the models a backend returned for endpoint `e`, every
key `k` holds its old sequence followed by one copy of `e` per returned model whose
key is `k`, where the key of a model is `e.Name + "/" + id` in mode `"prefix"` and
`id` unchanged in every other mode; a key that no returned model maps to keeps its
entry (present or absent) as it was. `fetchAndRegisterModels` itself is this loop
over the list of `getMockModels`. -/
theorem fetchAndRegisterModels_keys (M : Registry) (e : EndpointConfig) (mode : String)
    (models : List Model) (k : String) :
    (registerModels M e mode models k =
      if models.countP
          (fun m => (if mode = "prefix" then e.Name ++ "/" ++ m.ID else m.ID) = k) = 0
      then M k
      else some (M.lookup k ++ List.replicate
        (models.countP (fun m => (if mode = "prefix" then e.Name ++ "/" ++ m.ID else m.ID) = k))
        e)) ∧
    fetchAndRegisterModels M e mode = registerModels M e mode (getMockModels e.Name).Data :=
  ⟨registerModels_apply e mode models M k, rfl⟩

/-- Claim C9: unknown model. For every registry, proxy table, counter state and
successfully bound request whose model is not a registry key or maps to the empty
sequence, `handleChatCompletions` only answers with status `404`: its trace holds
no balancer call and no forwarding call, and the balancer counters are unchanged,
whatever the random draw would have been. -/
theorem handleChatCompletions_unknown_model (registry : Registry) (proxies : Proxies)
    (counters : Counters) (req : ChatCompletionRequest) (r : Int)
    (h : registry req.Model = none ∨ registry req.Model = some []) :
    (handleChatCompletions registry proxies counters (some req) r).trace = [.respondJSON 404] ∧
    (∀ m eps, Effect.balancerNext m eps ∉
      (handleChatCompletions registry proxies counters (some req) r).trace) ∧
    (∀ proxy, Effect.serveHTTP proxy ∉
      (handleChatCompletions registry proxies counters (some req) r).trace) ∧
    (handleChatCompletions registry proxies counters (some req) r).counters = counters := by
  rcases h with h | h <;> simp [handleChatCompletions, h]

theorem handleChatCompletions_unknown_model_witness :
    (handleChatCompletions exRegistry (fun _ => none) NewBalancer
      (some { Model := "no-such-model", Stream := false }) 0).trace = [.respondJSON 404] ∧
    (∀ m eps, Effect.balancerNext m eps ∉
      (handleChatCompletions exRegistry (fun _ => none) NewBalancer
        (some { Model := "no-such-model", Stream := false }) 0).trace) ∧
    (∀ proxy, Effect.serveHTTP proxy ∉
      (handleChatCompletions exRegistry (fun _ => none) NewBalancer
        (some { Model := "no-such-model", Stream := false }) 0).trace) ∧
    (handleChatCompletions exRegistry (fun _ => none) NewBalancer
      (some { Model := "no-such-model", Stream := false }) 0).counters = NewBalancer :=
  handleChatCompletions_unknown_model exRegistry (fun _ => none) NewBalancer
    { Model := "no-such-model", Stream := false } 0 (Or.inl (by decide))

/-! ## Registry membership -/

theorem lookup_of_some (M : Registry) (k : String) (l : List EndpointConfig)
    (h : M k = some l) : M.lookup k = l := by
  simp [Registry.lookup, h]

theorem resolveRefs_mem (M : Registry) (refs : List String) (acc : List EndpointConfig)
    (ep : EndpointConfig) (h : ep ∈ resolveRefs M acc refs) :
    ep ∈ acc ∨ ∃ k, ep ∈ M.lookup k := by
  induction refs generalizing acc with
  | nil => exact Or.inl h
  | cons modelRef rest ih =>
    unfold resolveRefs at h
    split at h
    · rename_i providerName modelName _
      split at h
      · rename_i originalEndpoints hM
        split at h
        · rename_i found hfind
          rcases ih _ h with hacc | hocc
          · rcases List.mem_append.mp hacc with h1 | h1
            · exact Or.inl h1
            · right
              refine ⟨modelName, ?_⟩
              rw [lookup_of_some M modelName originalEndpoints hM]
              have : ep = found := by simpa using h1
              rw [this]
              exact List.mem_of_find?_eq_some hfind
          · exact Or.inr hocc
        · exact ih _ h
      · exact ih _ h
    · exact ih _ h

theorem delete_lookup_sub (M : Registry) (k j : String) (ep : EndpointConfig)
    (h : ep ∈ (M.delete k).lookup j) : ep ∈ M.lookup j := by
  unfold Registry.lookup Registry.delete at h
  by_cases hj : j = k
  · simp [hj] at h
  · simpa [Registry.lookup, hj] using h

theorem cleanupRefs_sub (refs : List String) (M : Registry) (j : String) (ep : EndpointConfig)
    (h : ep ∈ (cleanupRefs M refs).lookup j) : ep ∈ M.lookup j := by
  induction refs generalizing M with
  | nil => exact h
  | cons modelRef rest ih =>
    unfold cleanupRefs at h
    split at h
    · split at h
      · exact delete_lookup_sub _ _ _ _ (ih _ h)
      · exact ih _ h
    · exact ih _ h

theorem applyOverride_occurs (M : Registry) (rule : String × List String) (j : String)
    (ep : EndpointConfig) (h : ep ∈ (applyOverride M rule).lookup j) :
    ∃ k, ep ∈ M.lookup k := by
  unfold applyOverride at h
  simp only at h
  split at h
  · have h2 := cleanupRefs_sub _ _ _ _ h
    by_cases hj : j = rule.1
    · have h3 : ep ∈ M.lookup rule.1 ++ resolveRefs M [] rule.2 := by
        simpa [Registry.lookup, Registry.set, hj] using h2
      rcases List.mem_append.mp h3 with h4 | h4
      · exact ⟨_, h4⟩
      · rcases resolveRefs_mem M rule.2 [] ep h4 with h5 | h5
        · simp at h5
        · exact h5
    · refine ⟨j, ?_⟩
      simpa [Registry.lookup, Registry.set, hj] using h2
  · exact ⟨j, h⟩

theorem applyModelOverrides_occurs (overrides : List (String × List String)) (M : Registry)
    (j : String) (ep : EndpointConfig) (h : ep ∈ (applyModelOverrides M overrides).lookup j) :
    ∃ k, ep ∈ M.lookup k := by
  induction overrides generalizing M j with
  | nil => exact ⟨j, h⟩
  | cons rule rest ih =>
    obtain ⟨k, hk⟩ := ih (applyOverride M rule) j h
    exact applyOverride_occurs M rule k ep hk

theorem runRegisterCalls_mem (calls : List (String × EndpointConfig)) (M : Registry)
    (j : String) (ep : EndpointConfig) (h : ep ∈ (runRegisterCalls M calls).lookup j) :
    ep ∈ M.lookup j ∨ ∃ call ∈ calls, call.2 = ep := by
  induction calls generalizing M with
  | nil => exact Or.inl h
  | cons call rest ih =>
    have h1 : ep ∈ (runRegisterCalls (register M call.1 call.2) rest).lookup j := h
    rcases ih _ h1 with h2 | ⟨c, hc, hce⟩
    · by_cases hj : j = call.1
      · have h3 : ep ∈ M.lookup call.1 ++ [call.2] := by
          simpa [Registry.lookup, register_apply, hj] using h2
        rcases List.mem_append.mp h3 with h4 | h4
        · left
          rw [hj]
          exact h4
        · right
          refine ⟨call, List.mem_cons_self _ _, ?_⟩
          have : ep = call.2 := by simpa using h4
          exact this.symm
      · left
        simpa [Registry.lookup, register_apply, hj] using h2
    · exact Or.inr ⟨c, List.mem_cons_of_mem _ hc, hce⟩

theorem registerModels_eq_run (e : EndpointConfig) (mode : String) (models : List Model)
    (M : Registry) :
    registerModels M e mode models =
      runRegisterCalls M (models.map (fun model => (modelKey e mode model, e))) := by
  induction models generalizing M with
  | nil => rfl
  | cons m rest ih =>
    rw [registerModels, ih]
    rfl

theorem foldl_fetch_eq_run (mode : String) (endpoints : List EndpointConfig) (M : Registry) :
    endpoints.foldl (fun R endpoint => fetchAndRegisterModels R endpoint mode) M =
      runRegisterCalls M (endpoints.flatMap (registerCalls getMockModels mode)) := by
  induction endpoints generalizing M with
  | nil => rfl
  | cons e rest ih =>
    rw [List.foldl_cons, ih, List.flatMap_cons]
    unfold runRegisterCalls
    rw [List.foldl_append]
    congr 1
    exact registerModels_eq_run e mode _ M

theorem NewModelRegistry_eq_buildRegistry (cfg : Config) :
    NewModelRegistry cfg =
      buildRegistry cfg (cfg.Endpoints.flatMap (registerCalls getMockModels cfg.Routing.Mode)) := by
  unfold NewModelRegistry buildRegistry
  rw [foldl_fetch_eq_run]

theorem buildRegistry_members (cfg : Config) (discover : String → ModelList)
    (calls : List (String × EndpointConfig))
    (hcalls : calls.Perm (cfg.Endpoints.flatMap (registerCalls discover cfg.Routing.Mode)))
    (k : String) (ep : EndpointConfig) (h : ep ∈ (buildRegistry cfg calls).lookup k) :
    ep ∈ cfg.Endpoints := by
  have hreg : ∀ j, ep ∈ (runRegisterCalls Registry.empty calls).lookup j → ep ∈ cfg.Endpoints := by
    intro j hj
    rcases runRegisterCalls_mem calls Registry.empty j ep hj with h1 | ⟨c, hc, hce⟩
    · simp [Registry.lookup, Registry.empty] at h1
    · have hc2 := (hcalls.mem_iff).mp hc
      obtain ⟨e, he, hce2⟩ := List.mem_flatMap.mp hc2
      unfold registerCalls at hce2
      obtain ⟨m, _, hm⟩ := List.mem_map.mp hce2
      rw [← hce, ← hm]
      exact he
  unfold buildRegistry at h
  simp only at h
  split at h
  · obtain ⟨j, hj⟩ := applyModelOverrides_occurs _ _ _ _ h
    exact hreg j hj
  · exact hreg k h

/-- Claim C10: registry membership invariant. For every configuration, every
discovery function and every serialisation `calls` of the `register` calls of the
discovery goroutines, each endpoint in any sequence of the registry built by
`NewModelRegistry` (registration, then `applyModelOverrides` in mode `"merge"`) is
an element of `cfg.Endpoints`; the same holds for the sequential run over
`getMockModels`; and `applyModelOverrides` never yields an endpoint that did not
already occur in the registry it was given. -/
theorem registry_members_in_directory (cfg : Config) (discover : String → ModelList)
    (calls : List (String × EndpointConfig))
    (hcalls : calls.Perm (cfg.Endpoints.flatMap (registerCalls discover cfg.Routing.Mode))) :
    (∀ k ep, ep ∈ (buildRegistry cfg calls).lookup k → ep ∈ cfg.Endpoints) ∧
    (∀ k ep, ep ∈ (NewModelRegistry cfg).lookup k → ep ∈ cfg.Endpoints) ∧
    (∀ (M : Registry) (overrides : List (String × List String)) k ep,
      ep ∈ (applyModelOverrides M overrides).lookup k → ∃ j, ep ∈ M.lookup j) := by
  refine ⟨fun k ep h => buildRegistry_members cfg discover calls hcalls k ep h, ?_, ?_⟩
  · intro k ep h
    rw [NewModelRegistry_eq_buildRegistry] at h
    exact buildRegistry_members cfg getMockModels _ (List.Perm.refl _) k ep h
  · intro M overrides k ep h
    exact applyModelOverrides_occurs overrides M k ep h

theorem registry_members_in_directory_witness :
    (∀ k ep, ep ∈ (buildRegistry exConfig exCalls).lookup k → ep ∈ exConfig.Endpoints) ∧
    (∀ k ep, ep ∈ (NewModelRegistry exConfig).lookup k → ep ∈ exConfig.Endpoints) ∧
    (∀ (M : Registry) (overrides : List (String × List String)) k ep,
      ep ∈ (applyModelOverrides M overrides).lookup k → ∃ j, ep ∈ M.lookup j) :=
  registry_members_in_directory exConfig getMockModels exCalls (by decide)

/-! ## Refs of override rules -/

theorem splitFirstSlash_none (l : List Char) (h : '/' ∉ l) : splitFirstSlash l = none := by
  induction l with
  | nil => rfl
  | cons c cs ih =>
    have hc : c ≠ '/' := fun hc => h (by simp [hc])
    have hcs : '/' ∉ cs := fun hcs => h (List.mem_cons_of_mem _ hcs)
    simp [splitFirstSlash, hc, ih hcs]

theorem splitFirstSlash_some (l : List Char) (h : '/' ∈ l) :
    ∃ a b, splitFirstSlash l = some (a, b) := by
  induction l with
  | nil => simp at h
  | cons c cs ih =>
    by_cases hc : c = '/'
    · exact ⟨[], cs, by simp [splitFirstSlash, hc]⟩
    · have hcs : '/' ∈ cs := by
        rcases List.mem_cons.mp h with h1 | h1
        · exact absurd h1.symm hc
        · exact h1
      obtain ⟨a, b, hab⟩ := ih hcs
      exact ⟨c :: a, b, by simp [splitFirstSlash, hc, hab]⟩

theorem splitN2_malformed (s : String) (h : '/' ∉ s.data) : splitN2 s = [s] := by
  simp [splitN2, splitFirstSlash_none s.data h]

theorem splitN2_wellformed (s : String) (h : '/' ∈ s.data) : ∃ p m, splitN2 s = [p, m] := by
  obtain ⟨a, b, hab⟩ := splitFirstSlash_some s.data h
  exact ⟨String.mk a, String.mk b, by simp [splitN2, hab]⟩

theorem splitN2_cases (s : String) : splitN2 s = [s] ∨ ∃ p m, splitN2 s = [p, m] := by
  by_cases h : '/' ∈ s.data
  · exact Or.inr (splitN2_wellformed s h)
  · exact Or.inl (splitN2_malformed s h)

theorem firstMatch_of_single (M : Registry) (modelRef : String) (h : splitN2 modelRef = [modelRef]) :
    firstMatch M modelRef = none := by
  simp [firstMatch, h]

theorem firstMatch_of_pair (M : Registry) (modelRef p m : String) (h : splitN2 modelRef = [p, m]) :
    firstMatch M modelRef = (M.lookup m).find? (fun ep => ep.Name = p) := by
  simp [firstMatch, h]

theorem refModel_of_single (modelRef : String) (h : splitN2 modelRef = [modelRef]) :
    refModel modelRef = none := by
  simp [refModel, h]

theorem refModel_of_pair (modelRef p m : String) (h : splitN2 modelRef = [p, m]) :
    refModel modelRef = some m := by
  simp [refModel, h]

theorem resolveRefs_cons_single (M : Registry) (acc : List EndpointConfig) (modelRef : String)
    (rest : List String) (h : splitN2 modelRef = [modelRef]) :
    resolveRefs M acc (modelRef :: rest) = resolveRefs M acc rest := by
  rw [resolveRefs]
  simp [h]

theorem resolveRefs_cons_pair (M : Registry) (acc : List EndpointConfig) (modelRef p m : String)
    (rest : List String) (h : splitN2 modelRef = [p, m]) :
    resolveRefs M acc (modelRef :: rest) =
      resolveRefs M (acc ++ ((M.lookup m).find? (fun ep => ep.Name = p)).toList) rest := by
  rw [resolveRefs]
  simp only [h]
  cases hM : M m with
  | none => simp [Registry.lookup, hM]
  | some l =>
    simp only [Registry.lookup, hM, Option.getD_some]
    cases hf : l.find? (fun ep => decide (ep.Name = p)) <;> simp

theorem resolveRefs_eq (M : Registry) (refs : List String) (acc : List EndpointConfig) :
    resolveRefs M acc refs = acc ++ firstMatches M refs := by
  induction refs generalizing acc with
  | nil => simp [resolveRefs, firstMatches]
  | cons modelRef rest ih =>
    rcases splitN2_cases modelRef with h | ⟨p, m, h⟩
    · rw [resolveRefs_cons_single M acc modelRef rest h, ih]
      simp [firstMatches, List.filterMap_cons, firstMatch_of_single M modelRef h]
    · rw [resolveRefs_cons_pair M acc modelRef p m rest h, ih]
      simp only [firstMatches, List.filterMap_cons, firstMatch_of_pair M modelRef p m h]
      cases (M.lookup m).find? (fun ep => decide (ep.Name = p)) <;> simp

theorem cleanupRefs_cons_single (M : Registry) (modelRef : String) (rest : List String)
    (h : splitN2 modelRef = [modelRef]) :
    cleanupRefs M (modelRef :: rest) = cleanupRefs M rest := by
  rw [cleanupRefs]
  simp [h]

theorem cleanupRefs_cons_pair (M : Registry) (modelRef p m : String) (rest : List String)
    (h : splitN2 modelRef = [p, m]) :
    cleanupRefs M (modelRef :: rest) =
      cleanupRefs (if (M.lookup m).length = 1 then M.delete m else M) rest := by
  rw [cleanupRefs]
  simp only [h]
  split <;> rfl

theorem applyOverride_eq (M : Registry) (rule : String × List String) :
    applyOverride M rule =
      if firstMatches M rule.2 = [] then M
      else cleanupRefs (M.set rule.1 (M.lookup rule.1 ++ firstMatches M rule.2)) rule.2 := by
  unfold applyOverride
  simp only [resolveRefs_eq, List.nil_append]
  cases hC : firstMatches M rule.2 <;> simp

/-! ## Failed and malformed refs, and what a merge appends -/

theorem delete_apply_ne (M : Registry) (m k : String) (h : k ≠ m) : M.delete m k = M k := by
  simp [Registry.delete, h]

theorem set_apply_ne (M : Registry) (u k : String) (v : List EndpointConfig) (h : k ≠ u) :
    M.set u v k = M k := by
  simp [Registry.set, h]

theorem set_apply_self (M : Registry) (u : String) (v : List EndpointConfig) :
    M.set u v u = some v := by
  simp [Registry.set]

theorem cleanupRefs_frame (refs : List String) (M : Registry) (k : String)
    (h : k ∉ refs.filterMap refModel) : cleanupRefs M refs k = M k := by
  induction refs generalizing M with
  | nil => rfl
  | cons modelRef rest ih =>
    rcases splitN2_cases modelRef with hs | ⟨p, m, hs⟩
    · rw [cleanupRefs_cons_single M modelRef rest hs]
      apply ih
      simpa [List.filterMap_cons, refModel_of_single modelRef hs] using h
    · rw [cleanupRefs_cons_pair M modelRef p m rest hs]
      have h2 : k ≠ m ∧ k ∉ rest.filterMap refModel := by
        simpa [List.filterMap_cons, refModel_of_pair modelRef p m hs] using h
      rw [ih _ h2.2]
      split
      · exact delete_apply_ne M m k h2.1
      · rfl

theorem firstMatches_of_failed (M : Registry) (refs : List String)
    (h : ∀ modelRef ∈ refs, '/' ∉ modelRef.data ∨
      ∃ p m, splitN2 modelRef = [p, m] ∧ (M m = none ∨ ∀ ep ∈ M.lookup m, ep.Name ≠ p)) :
    firstMatches M refs = [] := by
  unfold firstMatches
  rw [List.filterMap_eq_nil_iff]
  intro modelRef hmem
  rcases h modelRef hmem with hbad | ⟨p, m, hs, hno⟩
  · exact firstMatch_of_single M modelRef (splitN2_malformed modelRef hbad)
  · rw [firstMatch_of_pair M modelRef p m hs, List.find?_eq_none]
    intro ep hep
    have hne : ep.Name ≠ p := by
      rcases hno with hnone | hall
      · simp [Registry.lookup, hnone] at hep
      · exact hall ep hep
    simpa using hne

/-- Claim C11: failed override rules are skipped. If every ref of every rule is
malformed (holds no `/`) or does not resolve (it splits into `(p, m)` and `m` is not
a registry key, or no endpoint registered under `m` is named `p`), then
`applyModelOverrides`, a total function, returns the registry exactly as given. -/
theorem applyModelOverrides_failed_rules (M : Registry) (overrides : List (String × List String))
    (h : ∀ rule ∈ overrides, ∀ modelRef ∈ rule.2, '/' ∉ modelRef.data ∨
      ∃ p m, splitN2 modelRef = [p, m] ∧ (M m = none ∨ ∀ ep ∈ M.lookup m, ep.Name ≠ p)) :
    applyModelOverrides M overrides = M := by
  induction overrides with
  | nil => rfl
  | cons rule rest ih =>
    have hrule : applyOverride M rule = M := by
      rw [applyOverride_eq, firstMatches_of_failed M rule.2 (h rule (List.mem_cons_self _ _))]
      simp
    show applyModelOverrides (applyOverride M rule) rest = M
    rw [hrule]
    exact ih (fun r hr => h r (List.mem_cons_of_mem _ hr))

theorem applyModelOverrides_failed_rules_witness :
    applyModelOverrides exRegistry
      [("unified", ["no-slash", "provider-z/claude"]), ("other", ["provider-a/unknown-model"])]
      = exRegistry :=
  applyModelOverrides_failed_rules exRegistry
    [("unified", ["no-slash", "provider-z/claude"]), ("other", ["provider-a/unknown-model"])]
    (by
      intro rule hrule modelRef href
      simp only [List.mem_cons, List.mem_singleton, List.not_mem_nil, or_false] at hrule
      rcases hrule with rfl | rfl
      · simp only [List.mem_cons, List.mem_singleton, List.not_mem_nil, or_false] at href
        rcases href with rfl | rfl
        · exact Or.inl (by decide)
        · exact Or.inr ⟨"provider-z", "claude", by decide, Or.inr (by decide)⟩
      · simp only [List.mem_cons, List.mem_singleton, List.not_mem_nil, or_false] at href
        subst href
        exact Or.inr ⟨"provider-a", "unknown-model", by decide, Or.inl (by decide)⟩)

theorem firstMatches_filter (M : Registry) (refs : List String) :
    firstMatches M (refs.filter (fun modelRef => decide ('/' ∈ modelRef.data))) =
      firstMatches M refs := by
  induction refs with
  | nil => rfl
  | cons modelRef rest ih =>
    unfold firstMatches at ih ⊢
    by_cases hs : '/' ∈ modelRef.data
    · simp only [List.filter_cons, hs, decide_True, if_true, List.filterMap_cons, ih]
    · have hnone := firstMatch_of_single M modelRef (splitN2_malformed modelRef hs)
      simpa [List.filter_cons, hs, List.filterMap_cons, hnone] using ih

theorem cleanupRefs_filter (refs : List String) (M : Registry) :
    cleanupRefs M (refs.filter (fun modelRef => decide ('/' ∈ modelRef.data))) =
      cleanupRefs M refs := by
  induction refs generalizing M with
  | nil => rfl
  | cons modelRef rest ih =>
    by_cases hs : '/' ∈ modelRef.data
    · obtain ⟨p, m, hpm⟩ := splitN2_wellformed modelRef hs
      simp only [List.filter_cons, hs, decide_True, if_true]
      rw [cleanupRefs_cons_pair M modelRef p m _ hpm, cleanupRefs_cons_pair M modelRef p m _ hpm, ih]
    · simp only [List.filter_cons, hs, decide_False]
      rw [cleanupRefs_cons_single M modelRef rest (splitN2_malformed modelRef hs)]
      simpa using ih M

theorem applyOverride_filter (M : Registry) (rule : String × List String) :
    applyOverride M (rule.1, rule.2.filter (fun modelRef => decide ('/' ∈ modelRef.data))) =
      applyOverride M rule := by
  rw [applyOverride_eq, applyOverride_eq]
  simp only [firstMatches_filter, cleanupRefs_filter]

theorem splitN2_length_iff (modelRef : String) :
    '/' ∉ modelRef.data ↔ (splitN2 modelRef).length ≠ 2 := by
  constructor
  · intro h
    rw [splitN2_malformed modelRef h]
    simp
  · intro h hs
    obtain ⟨p, m, hpm⟩ := splitN2_wellformed modelRef hs
    rw [hpm] at h
    exact h rfl

/-- Claim C12: malformed refs have no effect. For every registry and all override
rules, `applyModelOverrides` gives the same registry as it gives for the rules with
every malformed ref removed, where a ref is malformed when it holds no `/`, which is
exactly when `strings.SplitN(ref, "/", 2)` does not yield two parts. -/
theorem applyModelOverrides_drop_malformed (M : Registry)
    (overrides : List (String × List String)) :
    applyModelOverrides M overrides =
      applyModelOverrides M (overrides.map (fun rule =>
        (rule.1, rule.2.filter (fun modelRef => decide ('/' ∈ modelRef.data))))) ∧
    ∀ modelRef : String, '/' ∉ modelRef.data ↔ (splitN2 modelRef).length ≠ 2 := by
  refine ⟨?_, splitN2_length_iff⟩
  induction overrides generalizing M with
  | nil => rfl
  | cons rule rest ih =>
    show applyModelOverrides (applyOverride M rule) rest =
      applyModelOverrides (applyOverride M
        (rule.1, rule.2.filter (fun modelRef => decide ('/' ∈ modelRef.data)))) _
    rw [applyOverride_filter, ih]

/-- Claim C15: merge appends the first match of each resolving ref, in ref order.
For a single rule `unified -> refs` in which no well-formed ref names `unified` as
its model, the list collected by the resolution loop is `firstMatches M refs` (for
each well-formed ref `(p, m)`, in order, the first endpoint of `M[m]` named `p`,
looked up in `M` as given). If that list is empty the registry is unchanged, else
`unified` maps to `M[unified]` followed by that list. -/
theorem applyModelOverrides_appends_first_matches (M : Registry) (unified : String)
    (refs : List String)
    (h : ∀ modelRef ∈ refs, ∀ p, splitN2 modelRef ≠ [p, unified]) :
    resolveRefs M [] refs = firstMatches M refs ∧
    (if firstMatches M refs = [] then applyModelOverrides M [(unified, refs)] = M
     else applyModelOverrides M [(unified, refs)] unified
       = some (M.lookup unified ++ firstMatches M refs)) := by
  refine ⟨by simpa using resolveRefs_eq M refs [], ?_⟩
  have hnot : unified ∉ refs.filterMap refModel := by
    intro hmem
    obtain ⟨modelRef, href, hm⟩ := List.mem_filterMap.mp hmem
    rcases splitN2_cases modelRef with hs | ⟨p, m, hs⟩
    · rw [refModel_of_single modelRef hs] at hm
      cases hm
    · rw [refModel_of_pair modelRef p m hs] at hm
      cases hm
      exact h modelRef href p hs
  rw [applyModelOverrides_single, applyOverride_eq]
  by_cases hC : firstMatches M refs = []
  · simp [hC]
  · simp only [hC, if_false]
    rw [cleanupRefs_frame refs _ unified hnot, set_apply_self]

theorem applyModelOverrides_appends_first_matches_witness :
    resolveRefs exRegistry [] ["provider-b/gpt-4", "bad-ref", "provider-a/gpt-4-turbo-preview"]
      = firstMatches exRegistry ["provider-b/gpt-4", "bad-ref", "provider-a/gpt-4-turbo-preview"] ∧
    (if firstMatches exRegistry
        ["provider-b/gpt-4", "bad-ref", "provider-a/gpt-4-turbo-preview"] = []
     then applyModelOverrides exRegistry
        [("claude", ["provider-b/gpt-4", "bad-ref", "provider-a/gpt-4-turbo-preview"])]
        = exRegistry
     else applyModelOverrides exRegistry
        [("claude", ["provider-b/gpt-4", "bad-ref", "provider-a/gpt-4-turbo-preview"])] "claude"
       = some (exRegistry.lookup "claude" ++ firstMatches exRegistry
          ["provider-b/gpt-4", "bad-ref", "provider-a/gpt-4-turbo-preview"])) :=
  applyModelOverrides_appends_first_matches exRegistry "claude"
    ["provider-b/gpt-4", "bad-ref", "provider-a/gpt-4-turbo-preview"]
    (by
      intro modelRef href p
      simp only [List.mem_cons, List.mem_singleton, List.not_mem_nil, or_false] at href
      rcases href with rfl | rfl | rfl
      · have : splitN2 "provider-b/gpt-4" = ["provider-b", "gpt-4"] := by decide
        rw [this]
        simp
      · have : splitN2 "bad-ref" = ["bad-ref"] := by decide
        rw [this]
        simp
      · have : splitN2 "provider-a/gpt-4-turbo-preview" = ["provider-a", "gpt-4-turbo-preview"] := by
          decide
        rw [this]
        simp)

/-! ## Non-empty sequences and independent rules -/

theorem cleanupRefs_some (refs : List String) (M : Registry) (k : String)
    (l : List EndpointConfig) (h : cleanupRefs M refs k = some l) : M k = some l := by
  induction refs generalizing M with
  | nil => exact h
  | cons modelRef rest ih =>
    rcases splitN2_cases modelRef with hs | ⟨p, m, hs⟩
    · rw [cleanupRefs_cons_single M modelRef rest hs] at h
      exact ih M h
    · rw [cleanupRefs_cons_pair M modelRef p m rest hs] at h
      have h2 := ih _ h
      split at h2
      · unfold Registry.delete at h2
        by_cases hk : k = m
        · simp [hk] at h2
        · simpa [hk] using h2
      · exact h2

theorem applyOverride_no_empty (M : Registry) (rule : String × List String)
    (h : ∀ k l, M k = some l → l ≠ []) :
    ∀ k l, applyOverride M rule k = some l → l ≠ [] := by
  intro k l hk
  rw [applyOverride_eq] at hk
  by_cases hC : firstMatches M rule.2 = []
  · rw [if_pos hC] at hk
    exact h k l hk
  · rw [if_neg hC] at hk
    have h2 := cleanupRefs_some _ _ _ _ hk
    by_cases hu : k = rule.1
    · rw [hu, set_apply_self] at h2
      cases h2
      intro hnil
      exact hC (List.append_eq_nil.mp hnil).2
    · rw [set_apply_ne _ _ _ _ hu] at h2
      exact h k l h2

theorem applyModelOverrides_no_empty (overrides : List (String × List String)) (M : Registry)
    (h : ∀ k l, M k = some l → l ≠ []) :
    ∀ k l, applyModelOverrides M overrides k = some l → l ≠ [] := by
  induction overrides generalizing M with
  | nil => exact h
  | cons rule rest ih => exact ih (applyOverride M rule) (applyOverride_no_empty M rule h)

theorem register_no_empty (M : Registry) (modelName : String) (endpoint : EndpointConfig)
    (h : ∀ k l, M k = some l → l ≠ []) :
    ∀ k l, register M modelName endpoint k = some l → l ≠ [] := by
  intro k l hk
  rw [register_apply] at hk
  by_cases hkm : k = modelName
  · rw [if_pos hkm] at hk
    cases hk
    simp
  · rw [if_neg hkm] at hk
    exact h k l hk

theorem runRegisterCalls_no_empty (calls : List (String × EndpointConfig)) (M : Registry)
    (h : ∀ k l, M k = some l → l ≠ []) :
    ∀ k l, runRegisterCalls M calls k = some l → l ≠ [] := by
  induction calls generalizing M with
  | nil => exact h
  | cons call rest ih => exact ih (register M call.1 call.2) (register_no_empty M call.1 call.2 h)

theorem buildRegistry_no_empty (cfg : Config) (calls : List (String × EndpointConfig)) :
    ∀ k l, buildRegistry cfg calls k = some l → l ≠ [] := by
  have hreg := runRegisterCalls_no_empty calls Registry.empty
    (by intro k l hk; simp [Registry.empty] at hk)
  unfold buildRegistry
  split
  · exact applyModelOverrides_no_empty _ _ hreg
  · exact hreg

/-- Claim C19: no empty candidate sequences. If every key of a registry maps to a
non-empty sequence, the same holds after `register` and after `applyModelOverrides`
for all override rules; hence every key of the registry built by `NewModelRegistry`
(for any serialisation of the register calls, and for the sequential run) maps to at
least one endpoint. -/
theorem registry_no_empty_sequences (M : Registry) (h : ∀ k l, M k = some l → l ≠ []) :
    (∀ modelName endpoint k l, register M modelName endpoint k = some l → l ≠ []) ∧
    (∀ overrides k l, applyModelOverrides M overrides k = some l → l ≠ []) ∧
    (∀ cfg calls k l, buildRegistry cfg calls k = some l → l ≠ []) ∧
    (∀ cfg k l, NewModelRegistry cfg k = some l → l ≠ []) := by
  refine ⟨fun modelName endpoint => register_no_empty M modelName endpoint h,
    fun overrides => applyModelOverrides_no_empty overrides M h,
    fun cfg calls => buildRegistry_no_empty cfg calls, ?_⟩
  intro cfg k l hk
  rw [NewModelRegistry_eq_buildRegistry] at hk
  exact buildRegistry_no_empty cfg _ k l hk

theorem registry_no_empty_sequences_witness :
    (∀ modelName endpoint k l, register exRegistry modelName endpoint k = some l → l ≠ []) ∧
    (∀ overrides k l, applyModelOverrides exRegistry overrides k = some l → l ≠ []) ∧
    (∀ cfg calls k l, buildRegistry cfg calls k = some l → l ≠ []) ∧
    (∀ cfg k l, NewModelRegistry cfg k = some l → l ≠ []) :=
  registry_no_empty_sequences exRegistry (by
    intro k l hk
    unfold exRegistry at hk
    split_ifs at hk <;> cases hk <;> simp)

theorem firstMatches_congr (M N : Registry) (refs : List String)
    (h : ∀ k ∈ refs.filterMap refModel, M k = N k) :
    firstMatches M refs = firstMatches N refs := by
  unfold firstMatches
  apply List.filterMap_congr
  intro modelRef href
  rcases splitN2_cases modelRef with hs | ⟨p, m, hs⟩
  · rw [firstMatch_of_single M modelRef hs, firstMatch_of_single N modelRef hs]
  · rw [firstMatch_of_pair M modelRef p m hs, firstMatch_of_pair N modelRef p m hs]
    have hm : M m = N m :=
      h m (List.mem_filterMap.mpr ⟨modelRef, href, refModel_of_pair modelRef p m hs⟩)
    simp [Registry.lookup, hm]

theorem cleanupRefs_agree (S : String → Prop) (refs : List String) (M N : Registry)
    (hS : ∀ k ∈ refs.filterMap refModel, S k) (h : ∀ k, S k → M k = N k) :
    ∀ k, S k → cleanupRefs M refs k = cleanupRefs N refs k := by
  induction refs generalizing M N with
  | nil => exact h
  | cons modelRef rest ih =>
    rcases splitN2_cases modelRef with hs | ⟨p, m, hs⟩
    · rw [cleanupRefs_cons_single M modelRef rest hs, cleanupRefs_cons_single N modelRef rest hs]
      apply ih M N _ h
      intro k hk
      exact hS k (by simpa [List.filterMap_cons, refModel_of_single modelRef hs] using hk)
    · rw [cleanupRefs_cons_pair M modelRef p m rest hs, cleanupRefs_cons_pair N modelRef p m rest hs]
      have hSm : S m := hS m (by simp [List.filterMap_cons, refModel_of_pair modelRef p m hs])
      have hlook : M.lookup m = N.lookup m := by simp [Registry.lookup, h m hSm]
      rw [hlook]
      apply ih
      · intro k hk
        exact hS k (by simp [List.filterMap_cons, refModel_of_pair modelRef p m hs, hk])
      · intro k hk
        split
        · unfold Registry.delete
          by_cases hkm : k = m
          · simp [hkm]
          · simp [hkm, h k hk]
        · exact h k hk

theorem applyOverride_frame (M : Registry) (rule : String × List String) (k : String)
    (h : k ∉ touchedNames rule) : applyOverride M rule k = M k := by
  have h2 : k ≠ rule.1 ∧ k ∉ rule.2.filterMap refModel := by
    simpa [touchedNames] using h
  rw [applyOverride_eq]
  split
  · rfl
  · rw [cleanupRefs_frame _ _ _ h2.2, set_apply_ne _ _ _ _ h2.1]

theorem applyOverride_local (M N : Registry) (rule : String × List String)
    (h : ∀ k ∈ touchedNames rule, M k = N k) :
    ∀ k ∈ touchedNames rule, applyOverride M rule k = applyOverride N rule k := by
  have hrefs : ∀ k ∈ rule.2.filterMap refModel, M k = N k :=
    fun k hk => h k (by simp [touchedNames, hk])
  have hu : M rule.1 = N rule.1 := h rule.1 (by simp [touchedNames])
  have hC := firstMatches_congr M N rule.2 hrefs
  have hlook : M.lookup rule.1 = N.lookup rule.1 := by simp [Registry.lookup, hu]
  intro k hk
  rw [applyOverride_eq, applyOverride_eq, hC, hlook]
  split
  · exact h k hk
  · apply cleanupRefs_agree (fun j => j ∈ touchedNames rule) rule.2 _ _ _ _ k hk
    · intro j hj
      simp [touchedNames, hj]
    · intro j hj
      by_cases hju : j = rule.1
      · rw [hju, set_apply_self, set_apply_self]
      · rw [set_apply_ne _ _ _ _ hju, set_apply_ne _ _ _ _ hju]
        exact h j hj

/-- Claim C20: order independence of disjoint override rules. If no name touched
by `rule1` (its unified name and the model names of its well-formed refs) is touched
by `rule2`, then `applyModelOverrides` gives the same registry whether it visits
`rule1` before `rule2` or `rule2` before `rule1`. -/
theorem applyModelOverrides_disjoint_rules_commute (M : Registry)
    (rule1 rule2 : String × List String)
    (hdisj : ∀ k ∈ touchedNames rule1, k ∉ touchedNames rule2) :
    applyModelOverrides M [rule1, rule2] = applyModelOverrides M [rule2, rule1] := by
  show applyOverride (applyOverride M rule1) rule2 = applyOverride (applyOverride M rule2) rule1
  funext k
  by_cases h1 : k ∈ touchedNames rule1
  · rw [applyOverride_frame _ rule2 k (hdisj k h1)]
    exact applyOverride_local M (applyOverride M rule2) rule1
      (fun j hj => (applyOverride_frame M rule2 j (hdisj j hj)).symm) k h1
  · rw [applyOverride_frame _ rule1 k h1]
    by_cases h2 : k ∈ touchedNames rule2
    · exact (applyOverride_local M (applyOverride M rule1) rule2
        (fun j hj => (applyOverride_frame M rule1 j (fun hj1 => hdisj j hj1 hj)).symm) k h2).symm
    · rw [applyOverride_frame _ rule2 k h2, applyOverride_frame _ rule1 k h1,
        applyOverride_frame _ rule2 k h2]

theorem applyModelOverrides_disjoint_rules_commute_witness :
    applyModelOverrides exRegistry
      [("gpt-4-unified", ["provider-a/gpt-4-turbo-preview", "provider-b/gpt-4"]),
       ("claude-unified", ["provider-b/claude"])] =
    applyModelOverrides exRegistry
      [("claude-unified", ["provider-b/claude"]),
       ("gpt-4-unified", ["provider-a/gpt-4-turbo-preview", "provider-b/gpt-4"])] :=
  applyModelOverrides_disjoint_rules_commute exRegistry
    ("gpt-4-unified", ["provider-a/gpt-4-turbo-preview", "provider-b/gpt-4"])
    ("claude-unified", ["provider-b/claude"]) (by decide)

/-! ## Total weight, the nil branch and the counters -/

theorem weightSum_ge_length (endpoints : List EndpointConfig) :
    (endpoints.length : Int) ≤ weightSum endpoints := by
  induction endpoints with
  | nil => simp [weightSum]
  | cons ep rest ih =>
    rw [weightSum_cons]
    have := effectiveWeight_pos ep
    simp only [List.length_cons, Nat.cast_add, Nat.cast_one]
    omega

theorem Next_of_pos (counters : Counters) (modelName : String)
    (endpoints : List EndpointConfig) (r : Int)
    (hlen : 2 ≤ endpoints.length) (hpos : 0 < totalWeight endpoints) :
    Next counters modelName endpoints r =
      match walk endpoints r with
      | some ep => .returned (some ep) counters
      | none => .returned endpoints.getLast? counters := by
  match endpoints, hlen, hpos with
  | e1 :: e2 :: rest, _, hpos =>
    rw [Next_unfold_many]
    have hne : ¬ totalWeight (e1 :: e2 :: rest) = 0 := by omega
    have hle : ¬ totalWeight (e1 :: e2 :: rest) ≤ 0 := by omega
    simp only [if_neg hne, randIntn, if_neg hle]

/-- Claim C13, amended: positive total weight when the weights fit a Go `int`. For
every candidate list with two or more entries whose effective weights sum to less
than `2 ^ 63`, the variable `totalWeight` is at least `len(candidates)`, hence
positive and not zero: the argument of `rand.Intn` is positive, the call does not
panic, and `Next` runs the weighted walk and not the round-robin branch. -/
theorem totalWeight_positive (endpoints : List EndpointConfig) (hlen : 2 ≤ endpoints.length)
    (hsum : weightSum endpoints < 2 ^ 63) :
    (endpoints.length : Int) ≤ totalWeight endpoints ∧
    0 < totalWeight endpoints ∧
    totalWeight endpoints ≠ 0 ∧
    (∀ r, randIntn (totalWeight endpoints) r = some r) ∧
    (∀ counters modelName r, Next counters modelName endpoints r =
      match walk endpoints r with
      | some ep => .returned (some ep) counters
      | none => .returned endpoints.getLast? counters) := by
  have htot := totalWeight_eq endpoints hsum
  have hge := weightSum_ge_length endpoints
  have hpos : 0 < totalWeight endpoints := by omega
  refine ⟨by omega, hpos, by omega, ?_, ?_⟩
  · intro r
    have hle : ¬ totalWeight endpoints ≤ 0 := by omega
    simp [randIntn, hle]
  · intro counters modelName r
    exact Next_of_pos counters modelName endpoints r hlen hpos

theorem totalWeight_positive_witness :
    (([exW3, exTwo].length : Nat) : Int) ≤ totalWeight [exW3, exTwo] ∧
    0 < totalWeight [exW3, exTwo] ∧
    totalWeight [exW3, exTwo] ≠ 0 ∧
    (∀ r, randIntn (totalWeight [exW3, exTwo]) r = some r) ∧
    (∀ counters modelName r, Next counters modelName [exW3, exTwo] r =
      match walk [exW3, exTwo] r with
      | some ep => .returned (some ep) counters
      | none => .returned [exW3, exTwo].getLast? counters) :=
  totalWeight_positive [exW3, exTwo] (by decide) (by decide)

/-- Claim C13 fails as stated: with weights `2 ^ 63 - 1` and `2` the Go `int` sum
wraps to `-2 ^ 63 + 1`, which is below `len(candidates)` and not positive, so
`rand.Intn` panics; with weights `2 ^ 63 - 1`, `2 ^ 63 - 1`, `2` it wraps to `0` and
`Next` runs the round-robin branch, writing the counter. -/
theorem totalWeight_overflow :
    2 ≤ [exMax1, exTwo].length ∧
    totalWeight [exMax1, exTwo] = -2 ^ 63 + 1 ∧
    ¬ ((([exMax1, exTwo].length : Nat) : Int) ≤ totalWeight [exMax1, exTwo]) ∧
    ¬ (0 < totalWeight [exMax1, exTwo]) ∧
    randIntn (totalWeight [exMax1, exTwo]) 0 = none ∧
    Next NewBalancer "gpt-4" [exMax1, exTwo] 0 = .panicked ∧
    2 ≤ [exMax1, exMax2, exTwo].length ∧
    totalWeight [exMax1, exMax2, exTwo] = 0 ∧
    Next NewBalancer "gpt-4" [exMax1, exMax2, exTwo] 0
      = .returned (some exMax1) (NewBalancer.write "gpt-4" 1) := by
  refine ⟨by decide, by decide, by decide, by decide, by decide, rfl, by decide, by decide, rfl⟩

theorem Next_nonempty (counters : Counters) (modelName : String)
    (endpoints : List EndpointConfig) (r : Int) (hne : endpoints ≠ []) :
    (∃ ep c1, Next counters modelName endpoints r = .returned (some ep) c1 ∧ ep ∈ endpoints) ∨
    (Next counters modelName endpoints r = .panicked ∧ 2 ≤ endpoints.length ∧
      totalWeight endpoints < 0) := by
  match endpoints, hne with
  | [], hne => exact absurd rfl hne
  | [ep], _ => exact Or.inl ⟨ep, counters, rfl, by simp⟩
  | e1 :: e2 :: rest, _ =>
    rw [Next_unfold_many]
    by_cases ht : totalWeight (e1 :: e2 :: rest) = 0
    · rw [if_pos ht]
      have hidx : counters.read modelName % (e1 :: e2 :: rest).length
          < (e1 :: e2 :: rest).length := Nat.mod_lt _ (by simp)
      rw [List.getElem?_eq_getElem hidx]
      exact Or.inl ⟨_, _, rfl, List.getElem_mem _⟩
    · rw [if_neg ht]
      by_cases hle : totalWeight (e1 :: e2 :: rest) ≤ 0
      · right
        simp only [randIntn, if_pos hle]
        exact ⟨trivial, by simp, by omega⟩
      · left
        simp only [randIntn, if_neg hle]
        cases hw : walk (e1 :: e2 :: rest) r with
        | some ep => exact ⟨ep, counters, rfl, walk_mem _ _ _ hw⟩
        | none =>
          refine ⟨(e1 :: e2 :: rest).getLast (by simp), counters, ?_, List.getLast_mem _⟩
          simp [List.getLast?_eq_getLast]

/-- Claim C16: the `selectedEndpoint == nil` branch of `handleChatCompletions` is
unreachable. Once the handler is past the 404 check (the model is a key with a
non-empty candidate list) `Next` never returns `nil`, whatever the drawn value; and
for every draw that obeys the contract of `rand.Intn` whenever `Next` draws, `Next`
returns a member of the list and the handler goes on to the proxy lookup with it. -/
theorem handleChatCompletions_nil_branch_unreachable (registry : Registry) (proxies : Proxies)
    (counters : Counters) (req : ChatCompletionRequest) (endpoints : List EndpointConfig)
    (r : Int) (hreg : registry req.Model = some endpoints) (hlen : endpoints.length ≠ 0) :
    (∀ c1, Next counters req.Model endpoints r ≠ .returned none c1) ∧
    ((2 ≤ endpoints.length → totalWeight endpoints ≠ 0 →
        0 ≤ r ∧ r < totalWeight endpoints) →
      ∃ ep c1, Next counters req.Model endpoints r = .returned (some ep) c1 ∧ ep ∈ endpoints ∧
        handleChatCompletions registry proxies counters (some req) r =
          match proxies ep.Name with
          | none =>
            { trace := [.balancerNext req.Model endpoints, .respondJSON 500], counters := c1 }
          | some proxy =>
            { trace := [.balancerNext req.Model endpoints, .serveHTTP proxy], counters := c1 }) := by
  have hne : endpoints ≠ [] := by
    intro h
    exact hlen (by simp [h])
  constructor
  · intro c1 hnil
    rcases Next_nonempty counters req.Model endpoints r hne with ⟨ep, c2, h, _⟩ | ⟨h, _, _⟩
    · rw [h] at hnil
      cases hnil
    · rw [h] at hnil
      cases hnil
  · intro hr
    rcases Next_nonempty counters req.Model endpoints r hne with ⟨ep, c2, h, hmem⟩ | ⟨_, h2, hneg⟩
    · refine ⟨ep, c2, h, hmem, ?_⟩
      simp only [handleChatCompletions, hreg, hlen, if_false, h]
    · have := hr h2 (by omega)
      omega

theorem handleChatCompletions_nil_branch_unreachable_witness :
    (∀ c1, Next NewBalancer "gpt-4" [exA, exB] 1 ≠ .returned none c1) ∧
    ((2 ≤ [exA, exB].length → totalWeight [exA, exB] ≠ 0 →
        (0 : Int) ≤ 1 ∧ 1 < totalWeight [exA, exB]) →
      ∃ ep c1, Next NewBalancer "gpt-4" [exA, exB] 1 = .returned (some ep) c1 ∧
        ep ∈ [exA, exB] ∧
        handleChatCompletions exRegistry (NewServer exParse true exKeyConfig) NewBalancer
            (some { Model := "gpt-4", Stream := false }) 1 =
          match NewServer exParse true exKeyConfig ep.Name with
          | none =>
            { trace := [.balancerNext "gpt-4" [exA, exB], .respondJSON 500], counters := c1 }
          | some proxy =>
            { trace := [.balancerNext "gpt-4" [exA, exB], .serveHTTP proxy], counters := c1 }) :=
  handleChatCompletions_nil_branch_unreachable exRegistry (NewServer exParse true exKeyConfig)
    NewBalancer { Model := "gpt-4", Stream := false } [exA, exB] 1 (by decide) (by decide)

theorem write_apply_ne (c : Counters) (modelName k : String) (v : Nat) (h : k ≠ modelName) :
    c.write modelName v k = c k := by
  simp [Counters.write, h]

theorem write_read_self (c : Counters) (modelName : String) (v : Nat) :
    (c.write modelName v).read modelName = v := by
  simp [Counters.write, Counters.read]

theorem Next_counters (counters : Counters) (modelName : String)
    (endpoints : List EndpointConfig) (r : Int) (ep : Option EndpointConfig) (c1 : Counters)
    (h : Next counters modelName endpoints r = .returned ep c1) :
    c1 = counters ∨
    (2 ≤ endpoints.length ∧ totalWeight endpoints = 0 ∧
      c1 = counters.write modelName (wrapUint64 (counters.read modelName + 1))) := by
  match endpoints, h with
  | [], h =>
    left
    cases h
    rfl
  | [e], h =>
    left
    cases h
    rfl
  | e1 :: e2 :: rest, h =>
    rw [Next_unfold_many] at h
    by_cases ht : totalWeight (e1 :: e2 :: rest) = 0
    · right
      rw [if_pos ht] at h
      refine ⟨by simp, ht, ?_⟩
      split at h
      · cases h
        rfl
      · cases h
    · left
      rw [if_neg ht] at h
      split at h
      · cases h
      · split at h <;> (cases h; rfl)

/-- Claim C17, amended: selection counters are touched only by the degenerate
fallback. Whenever `Next` returns: if `totalWeight` is not `0` or the list has fewer
than two entries the whole counter map is unchanged; in every case the counter of
every other model name is unchanged, and the counter of the passed model is either
unchanged or replaced by its old value plus `1` modulo `2 ^ 64`, which is the old
value plus exactly `1` unless the old value is `2 ^ 64 - 1`. -/
theorem Next_counters_frame (counters : Counters) (modelName : String)
    (endpoints : List EndpointConfig) (r : Int) (ep : Option EndpointConfig) (c1 : Counters)
    (h : Next counters modelName endpoints r = .returned ep c1) :
    (totalWeight endpoints ≠ 0 ∨ endpoints.length < 2 → c1 = counters) ∧
    (∀ k, k ≠ modelName → c1 k = counters k) ∧
    (c1.read modelName = counters.read modelName ∨
      c1.read modelName = (counters.read modelName + 1) % 2 ^ 64) ∧
    (counters.read modelName + 1 < 2 ^ 64 →
      c1.read modelName = counters.read modelName ∨
      c1.read modelName = counters.read modelName + 1) := by
  rcases Next_counters counters modelName endpoints r ep c1 h with hc | ⟨hlen, ht, hc⟩
  · subst hc
    exact ⟨fun _ => rfl, fun _ _ => rfl, Or.inl rfl, fun _ => Or.inl rfl⟩
  · subst hc
    refine ⟨?_, ?_, ?_, ?_⟩
    · intro hcase
      rcases hcase with h1 | h1
      · exact absurd ht h1
      · omega
    · intro k hk
      exact write_apply_ne _ _ _ _ hk
    · right
      rw [write_read_self]
      rfl
    · intro hlt
      right
      rw [write_read_self]
      exact Nat.mod_eq_of_lt hlt

theorem Next_counters_frame_witness :
    (totalWeight [exMax1, exMax2, exTwo] ≠ 0 ∨ [exMax1, exMax2, exTwo].length < 2 →
      NewBalancer.write "gpt-4" 1 = NewBalancer) ∧
    (∀ k, k ≠ "gpt-4" → NewBalancer.write "gpt-4" 1 k = NewBalancer k) ∧
    ((NewBalancer.write "gpt-4" 1).read "gpt-4" = NewBalancer.read "gpt-4" ∨
      (NewBalancer.write "gpt-4" 1).read "gpt-4" = (NewBalancer.read "gpt-4" + 1) % 2 ^ 64) ∧
    (NewBalancer.read "gpt-4" + 1 < 2 ^ 64 →
      (NewBalancer.write "gpt-4" 1).read "gpt-4" = NewBalancer.read "gpt-4" ∨
      (NewBalancer.write "gpt-4" 1).read "gpt-4" = NewBalancer.read "gpt-4" + 1) :=
  Next_counters_frame NewBalancer "gpt-4" [exMax1, exMax2, exTwo] 0 (some exMax1)
    (NewBalancer.write "gpt-4" 1) rfl

/-- Claim C17 fails as stated: when the counter of `gpt-4` is `2 ^ 64 - 1` and the
round-robin branch runs (weights `2 ^ 63 - 1`, `2 ^ 63 - 1`, `2`), the `uint64`
addition wraps and the counter becomes `0`: it is neither unchanged nor incremented
by `1`. -/
theorem Next_counter_wraps :
    Next exFullCounters "gpt-4" [exMax1, exMax2, exTwo] 0
      = .returned (some exMax1) (exFullCounters.write "gpt-4" 0) ∧
    exFullCounters.read "gpt-4" = 2 ^ 64 - 1 ∧
    (exFullCounters.write "gpt-4" 0).read "gpt-4" = 0 ∧
    (exFullCounters.write "gpt-4" 0).read "gpt-4" ≠ exFullCounters.read "gpt-4" ∧
    (exFullCounters.write "gpt-4" 0).read "gpt-4" ≠ exFullCounters.read "gpt-4" + 1 := by
  refine ⟨rfl, by decide, by decide, by decide, by decide⟩

/-! ## Forwarding targets -/

theorem proxies_fold_other (parse : String → Option URL)
    (seen : EndpointConfig → EndpointConfig) (l : List EndpointConfig) (init : Proxies)
    (k : String) (h : ∀ e ∈ l, e.Name ≠ k) :
    l.foldl
      (fun (proxies : Proxies) endpoint =>
        match parse endpoint.BaseURL with
        | none => proxies
        | some target =>
          fun j => if j = endpoint.Name then some (director target (seen endpoint)) else proxies j)
      init k = init k := by
  induction l generalizing init with
  | nil => rfl
  | cons a rest ih =>
    rw [List.foldl_cons, ih _ (fun e he => h e (List.mem_cons_of_mem _ he))]
    have hak : ¬ k = a.Name := fun hk => h a (List.mem_cons_self _ _) hk.symm
    cases parse a.BaseURL with
    | none => rfl
    | some target => simp [hak]

theorem proxies_fold_mem (parse : String → Option URL)
    (seen : EndpointConfig → EndpointConfig) (l : List EndpointConfig) (init : Proxies)
    (e : EndpointConfig) (hd : l.Pairwise (fun a b => a.Name ≠ b.Name)) (he : e ∈ l) :
    l.foldl
      (fun (proxies : Proxies) endpoint =>
        match parse endpoint.BaseURL with
        | none => proxies
        | some target =>
          fun j => if j = endpoint.Name then some (director target (seen endpoint)) else proxies j)
      init e.Name =
      match parse e.BaseURL with
      | some target => some (director target (seen e))
      | none => init e.Name := by
  induction l generalizing init with
  | nil => simp at he
  | cons a rest ih =>
    rw [List.pairwise_cons] at hd
    rw [List.foldl_cons]
    rcases List.mem_cons.mp he with hea | her
    · subst hea
      rw [proxies_fold_other parse seen rest _ e.Name (fun x hx => (hd.1 x hx).symm)]
      cases parse e.BaseURL with
      | none => rfl
      | some target => simp
    · rw [ih _ hd.2 her]
      have hne : ¬ e.Name = a.Name := fun h => hd.1 e her h.symm
      cases parse e.BaseURL with
      | some target => rfl
      | none =>
        cases parse a.BaseURL with
        | none => rfl
        | some target => simp [hne]

theorem NewServer_apply (parse : String → Option URL) (cfg : Config) (e : EndpointConfig)
    (hd : cfg.Endpoints.Pairwise (fun a b => a.Name ≠ b.Name)) (he : e ∈ cfg.Endpoints) :
    NewServer parse true cfg e.Name = (parse e.BaseURL).map (fun target => director target e) := by
  have h := proxies_fold_mem parse (fun x => x) cfg.Endpoints (fun _ => none) e hd he
  have hdef : NewServer parse true cfg =
      cfg.Endpoints.foldl
        (fun (proxies : Proxies) endpoint =>
          match parse endpoint.BaseURL with
          | none => proxies
          | some target =>
            fun j => if j = endpoint.Name then some (director target endpoint) else proxies j)
        (fun _ => none) := rfl
  rw [hdef, h]
  cases parse e.BaseURL <;> rfl

/-- Claim C18, amended: credential of the selected backend under per-iteration loop
variables. When the program is built with the loop-variable rule of Go 1.22 and later
(`loopVarPerIteration = true`), for every configuration with pairwise distinct
endpoint names and every registry whose descriptors are elements of `cfg.Endpoints`,
whenever `handleChatCompletions` forwards a request through a proxy of `NewServer`,
that proxy targets the scheme and host parsed from the base address of the endpoint
`Next` selected and sets `Authorization` to `"Bearer "` followed by that endpoint's
own `APIKey`. -/
theorem forward_uses_selected_credential (parse : String → Option URL) (cfg : Config)
    (registry : Registry) (counters : Counters) (req : ChatCompletionRequest) (r : Int)
    (proxy : ReverseProxy)
    (hnames : cfg.Endpoints.Pairwise (fun a b => a.Name ≠ b.Name))
    (hinv : ∀ k ep, ep ∈ registry.lookup k → ep ∈ cfg.Endpoints)
    (hfwd : Effect.serveHTTP proxy ∈
      (handleChatCompletions registry (NewServer parse true cfg) counters (some req) r).trace) :
    ∃ selected c1 target,
      Next counters req.Model (registry.lookup req.Model) r = .returned (some selected) c1 ∧
      selected ∈ registry.lookup req.Model ∧
      parse selected.BaseURL = some target ∧
      proxy.Scheme = target.Scheme ∧ proxy.Host = target.Host ∧
      proxy.Authorization = "Bearer " ++ selected.APIKey := by
  unfold handleChatCompletions at hfwd
  simp only at hfwd
  cases hreg : registry req.Model with
  | none => simp [hreg] at hfwd
  | some endpoints =>
    have hlook : registry.lookup req.Model = endpoints := lookup_of_some _ _ _ hreg
    rw [hlook]
    simp only [hreg] at hfwd
    by_cases hlen : endpoints.length = 0
    · simp [hlen] at hfwd
    · simp only [hlen, if_false] at hfwd
      have hne : endpoints ≠ [] := fun h => hlen (by simp [h])
      rcases Next_nonempty counters req.Model endpoints r hne with
        ⟨selected, c1, hnext, hmem⟩ | ⟨hpanic, _, _⟩
      · simp only [hnext] at hfwd
        have hcfg : selected ∈ cfg.Endpoints := hinv req.Model selected (by rw [hlook]; exact hmem)
        rw [NewServer_apply parse cfg selected hnames hcfg] at hfwd
        cases hp : parse selected.BaseURL with
        | none => simp [hp] at hfwd
        | some target =>
          simp only [hp, Option.map_some'] at hfwd
          have hproxy : proxy = director target selected := by simpa using hfwd
          refine ⟨selected, c1, target, hnext, hmem, hp, ?_, ?_, ?_⟩ <;> rw [hproxy] <;> rfl
      · simp [hpanic] at hfwd

theorem forward_uses_selected_credential_witness :
    ∃ selected c1 target,
      Next NewBalancer "gpt-4" (exRegistry.lookup "gpt-4") 1 = .returned (some selected) c1 ∧
      selected ∈ exRegistry.lookup "gpt-4" ∧
      exParse selected.BaseURL = some target ∧
      (director { Scheme := "http", Host := "http://b.example" } exB).Scheme = target.Scheme ∧
      (director { Scheme := "http", Host := "http://b.example" } exB).Host = target.Host ∧
      (director { Scheme := "http", Host := "http://b.example" } exB).Authorization
        = "Bearer " ++ selected.APIKey :=
  forward_uses_selected_credential exParse exKeyConfig exRegistry NewBalancer
    { Model := "gpt-4", Stream := false } 1
    (director { Scheme := "http", Host := "http://b.example" } exB)
    (by decide)
    (by
      intro k ep hk
      unfold Registry.lookup exRegistry at hk
      split_ifs at hk <;> simp at hk <;> rcases hk with rfl | rfl <;> decide)
    (by
      have h : (handleChatCompletions exRegistry (NewServer exParse true exKeyConfig) NewBalancer
          (some { Model := "gpt-4", Stream := false }) 1).trace
          = [.balancerNext "gpt-4" [exA, exB],
             .serveHTTP (director { Scheme := "http", Host := "http://b.example" } exB)] := by
        decide
      rw [h]
      simp)

/-- Claim C18 fails as stated: the claim puts no condition on the Go version, and
under the loop-variable rule before Go 1.22 (`loopVarPerIteration = false`) every
`Director` reads the last endpoint of the configuration. With two endpoints of
distinct names whose addresses parse and a registry made of them, a request for
`gpt-4-turbo-preview` selects `provider-a` and is forwarded to the host of
`provider-a` with the header `Bearer key-b`, the key of `provider-b`. -/
theorem forward_shared_loop_variable :
    exKeyConfig.Endpoints.Pairwise (fun a b => a.Name ≠ b.Name) ∧
    (∀ e ∈ exKeyConfig.Endpoints, (exParse e.BaseURL).isSome = true) ∧
    (∀ k ep, ep ∈ exRegistry.lookup k → ep ∈ exKeyConfig.Endpoints) ∧
    Next NewBalancer "gpt-4-turbo-preview" (exRegistry.lookup "gpt-4-turbo-preview") 0
      = .returned (some exA) NewBalancer ∧
    (handleChatCompletions exRegistry (NewServer exParse false exKeyConfig) NewBalancer
        (some { Model := "gpt-4-turbo-preview", Stream := false }) 0).trace
      = [.balancerNext "gpt-4-turbo-preview" [exA],
         .serveHTTP { Scheme := "http", Host := "http://a.example",
                      Authorization := "Bearer key-b" }] ∧
    exParse exA.BaseURL = some { Scheme := "http", Host := "http://a.example" } ∧
    "Bearer key-b" ≠ "Bearer " ++ exA.APIKey := by
  refine ⟨by decide, by decide, ?_, rfl, by decide, by decide, by decide⟩
  intro k ep hk
  unfold Registry.lookup exRegistry at hk
  split_ifs at hk <;> simp at hk <;> rcases hk with rfl | rfl <;> decide

end Oaiunion
